import Mathlib

/-!
# Least-Squares Monte Carlo (Longstaff–Schwartz) option pricer: a verification development

This file gives a shallow embedding, in Lean 4, of the LSMC Bermudan-put pricer
from the notebook `LSMC_with_TPyTorch.ipynb`, and proves (or refutes) the
specification claims about it.

Embedding conventions:
* torch tensors (vectors / matrices of floats) become `List F` / `List (List F)`
  over a linear ordered field `F`; matrices are lists of rows.  Theorems are
  stated generically in `F`; concrete runs of the full pipeline are taken at
  `F := ℝ` with `torch.exp` and `numpy.sqrt` instantiated by `Real.exp` and
  `Real.sqrt`.
* vectorized arithmetic becomes `List.zipWith` / `List.map` on the entries;
  `torch.stack(..., dim=1)` of a list of columns becomes `stack1` below.
* operations that torch rejects at runtime on shape mismatch (tensor addition
  of unequal shapes, `torch.solve`) return `Option`; `none` models the raised
  runtime error.  Field division totalizes `x / 0` to `0` where IEEE floats
  would give `±Inf`/`NaN` (the spots where this matters are flagged in the
  corresponding theorems).
* the float-keyed time dictionaries `S[t]`, `cashflow[t]`, … of the source are
  reindexed by the integer step index `i` (time `t = i·Δt`), which is exactly
  the keying discipline the source's `np.round(..., 6)` bookkeeping implements.
-/

namespace LSMC

open Matrix

variable {F : Type} [LinearOrderedField F]

/-! ## Generic list toolkit (elementwise tensor operations) -/

/-- Elementwise ternary zip, used for the arithmetic `where` combinator. -/
def zipWith3 (f : F → F → F → F) : List F → List F → List F → List F
  | a :: as, b :: bs, c :: cs => f a b c :: zipWith3 f as bs cs
  | _, _, _ => []

/-- Cumulative product along a vector (`torch.cumprod(·, dim=1)` acting on one
row): `cumprod [a, b, c] = [a, a*b, a*b*c]`. -/
def cumprod : List F → List F
  | [] => []
  | a :: l => a :: (cumprod l).map (a * ·)

/-- Reduction `torch.min` over a vector; the empty vector (on which torch
raises) is totalized to `0`. -/
def lmin : List F → F
  | [] => 0
  | a :: l => l.foldl min a

/-- Reduction `torch.max` over a vector; the empty vector (on which torch
raises) is totalized to `0`. -/
def lmax : List F → F
  | [] => 0
  | a :: l => l.foldl max a

/-- `torch.stack(cols, dim=1)` for a list of column vectors of length
`nrows`: produces the list of rows. -/
def stack1 (cols : List (List F)) (nrows : ℕ) : List (List F) :=
  (List.range nrows).map (fun p => cols.map (fun c => c.getD p 0))

/-- Column `j` of a matrix given as a list of rows (`X[:, j]`). -/
def colL (X : List (List F)) (j : ℕ) : List F :=
  X.map (fun r => r.getD j 0)

/-- Matrix product of row-lists.  Entry `(i, j)` is
`∑ k, A[i][k] * B[k][j]`; like torch, the result has `numCols B` columns.
(The inner dimensions agree at every use site below.) -/
def numCols (X : List (List F)) : ℕ := (X.getD 0 []).length

def matMulL (A B : List (List F)) : List (List F) :=
  A.map (fun ar =>
    (List.range (numCols B)).map (fun j =>
      ((ar.zip B).map (fun p => p.1 * p.2.getD j 0)).sum))

/-- Elementwise tensor addition; torch raises on (non-broadcastable) shape
mismatch, modelled by `none`. -/
def matAddL (A B : List (List F)) : Option (List (List F)) :=
  if A.length = B.length ∧ ∀ p ∈ A.zip B, p.1.length = p.2.length then
    some (A.zipWith (fun ra rb => ra.zipWith (· + ·) rb) B)
  else none

/-- `torch.eye M`. -/
def eyeL (M : ℕ) : List (List F) :=
  (List.range M).map (fun i => (List.range M).map (fun j => if i = j then (1 : F) else 0))

/-- Scalar multiple of a matrix. -/
def smulM (c : F) (A : List (List F)) : List (List F) :=
  A.map (fun r => r.map (fun v => c * v))

/-- View a row-list as a Mathlib matrix, reading missing entries as `0`. -/
def toMat (nn M : ℕ) (A : List (List F)) : Matrix (Fin nn) (Fin M) F :=
  Matrix.of (fun i j => (A.getD i []).getD j 0)


/-! ## The auxiliary functions of the notebook -/

/-- Scalar Chebyshev recurrence `T₀ = 1`, `T₁ = x`, `Tₙ = 2·x·Tₙ₋₁ − Tₙ₋₂`:
the elementwise content of the vectorized recurrence
`B[n] = 2 * x * B[n - 1] - B[n - 2]` in `chebyshev_basis`. -/
def chebT : ℕ → F → F
  | 0, _ => 1
  | 1, x => x
  | n + 2, x => 2 * x * chebT (n + 1) x - chebT n x

/-- `chebyshev_basis(x, k)` of the notebook.  The source fills a dict with
columns `B[0] = ones`, `B[1] = x` and `B[n] = 2*x*B[n-1] - B[n-2]` for
`n ∈ range(2, k)`, then stacks the columns with `dim=1`; so the matrix has one
row per entry of `x` and `max 2 k` columns (columns `0` and `1` are created
unconditionally), row `i` being `[T_j(x_i) for j in range(max 2 k)]`. -/
def chebyshev_basis (x : List F) (k : ℕ) : List (List F) :=
  x.map (fun xi => (List.range (max 2 k)).map (fun j => chebT j xi))

/-- `torch.solve(B, A)[0]` for a square system of size `M` with a single
right-hand-side column `B` (the only use in the source): checks the shapes the
way torch does, then returns `A⁻¹ * B` computed by the adjugate formula,
failing (`none`) on a singular `A`. -/
def solveSq (M : ℕ) (A B : List (List F)) : Option (List (List F)) :=
  if A.length = M ∧ (∀ r ∈ A, r.length = M) ∧ B.length = M then
    let Am : Matrix (Fin M) (Fin M) F := toMat M M A
    let bv : Fin M → F := fun j => (B.getD j []).getD 0 0
    if Am.det = 0 then none
    else some (List.ofFn (fun i => [((Am.det)⁻¹ • (Am.adjugate.mulVec bv)) i]))
  else none

/-- `ridge_regression(X, Y, λ)` of the notebook:

    I = torch.eye(order)
    YY = Y.reshape(-1, 1)
    β = torch.solve(X.T @ YY, X.T @ X + λ * I)[0]
    return torch.squeeze(X @ β)

Note that the identity matrix has size `order` — the *global* polynomial
order — rather than the column count of `X`; the `order` argument below stands
for that global. -/
def ridge_regression (order : ℕ) (lam : F) (X : List (List F)) (Y : List F) :
    Option (List F) :=
  let Xt := stack1 X (numCols X)
  let YY := Y.map (fun y => [y])
  (matAddL (matMulL Xt X) (smulM lam (eyeL order))).bind (fun A =>
    (solveSq order A (matMulL Xt YY)).bind (fun β =>
      some ((matMulL X β).map (fun r => r.getD 0 0))))

/-- One row of `first_one(x)`: the notebook's computation

    x = (x > 0).type(x.dtype)
    x_not = 1 - x
    sum_x = torch.clamp(torch.cumprod(x_not, dim=1), max=1.)
    lag = torch.cat([ones, sum_x[:, :(n_columns - 1)]], dim=1)
    return original * (lag * x)

acts on each row independently (`cumprod` with `dim=1`, column slicing, and
elementwise products), so the matrix function is `List.map` of this row
function. -/
def first_one_row (x : List F) : List F :=
  let mask := x.map (fun v => if 0 < v then (1 : F) else 0)
  let x_not := mask.map (fun c => 1 - c)
  let sum_x := (cumprod x_not).map (fun v => min v 1)
  let lag := 1 :: sum_x.dropLast
  zipWith3 (fun orig l c => orig * (l * c)) x lag mask

/-- `first_one(x)` of the notebook. -/
def first_one (x : List (List F)) : List (List F) :=
  x.map first_one_row

/-- `scale(x)` of the notebook:

    a = 2 / (xmax - xmin)
    b = -0.5 * a * (xmin + xmax)
    return a * x + b

For a zero-range (constant) vector the source divides by zero: torch silently
produces `±Inf`/`NaN`, while the exact field model totalizes `2 / 0` to `0`.
There is no degeneracy check in the source. -/
def scale (x : List F) : List F :=
  let xmin := lmin x
  let xmax := lmax x
  let a := 2 / (xmax - xmin)
  let b := -(1 / 2) * a * (xmin + xmax)
  x.map (fun v => a * v + b)

/-- The arithmetic select `where(cond, x_1, x_2) = cond * x_1 + (1 - cond) * x_2`
of the notebook, taking the (already 0/1-cast) condition vector. -/
def whereFn (cond x1 x2 : List F) : List F :=
  zipWith3 (fun c a b => c * a + (1 - c) * b) cond x1 x2

/-- The 0/1 cast `(a > b).type(dtype)`, elementwise. -/
def gtMask (a b : List F) : List F :=
  a.zipWith (fun x y => if x > y then (1 : F) else 0) b

/-! ## The main pipeline of the notebook -/

/-- The globals of cell 2 of the notebook, plus the two external primitives.
`Spot, σv, K, r` are spot, volatility, strike and rate; `T` the maturity;
`order` the polynomial order; `n` the path count; `m` the step count.
`Z i` is the vector of standard-normal draws `torch.randn(n)` consumed by the
simulation step from time `i·Δt` to `(i+1)·Δt`, and `fexp` / `fsqrt` stand for
the external `torch.exp` / `np.sqrt` (instantiated with `Real.exp` /
`Real.sqrt` at `F := ℝ`). -/
structure Cfg (F : Type) where
  fexp : F → F
  fsqrt : F → F
  Spot : F
  σv : F
  K : F
  r : F
  T : F
  order : ℕ
  n : ℕ
  m : ℕ
  Z : ℕ → List F

variable (cfg : Cfg F)

/-- `Δt = T / m`. -/
def Δt : F := cfg.T / (cfg.m : F)

/-- `advance(S)` of the notebook: one Euler step
`S + r*S*Δt + σ*S*dB` with `dB = np.sqrt(Δt) * torch.randn(n)`. -/
def advance (Si Zi : List F) : List F :=
  Si.zipWith (fun s z => s + cfg.r * s * Δt cfg + cfg.σv * s * (cfg.fsqrt (Δt cfg) * z)) Zi

/-- The simulated price dictionary `S`, reindexed by step: `S cfg i` is the
source's `S[i·Δt]`, with `S[0] = Spot * torch.ones(n)` and each later entry
produced by `advance` from the previous one. -/
def S : ℕ → List F
  | 0 => List.replicate cfg.n cfg.Spot
  | i + 1 => advance cfg (S i) (cfg.Z i)

/-- `discount = torch.exp(-r * Δt)`. -/
def discount : F := cfg.fexp (-(cfg.r * Δt cfg))

/-- `cashflow[t] = torch.clamp(K - S[t], min=0)`, reindexed by step. -/
def cashflow (i : ℕ) : List F :=
  (S cfg i).map (fun s => max (cfg.K - s) 0)

/-- The backward recursion of the notebook, carrying the pair
`(value, continuation_value)` at time index `m - k` (so `vc cfg 0` is the
terminal state at `t = T` and `vc cfg k` the state after `k` backward steps):

    value = {T: cashflow[T] * discount}
    continuation_value = {T: torch.zeros(n)}
    for t in t_span[::-1][1:]:
        basis = chebyshev_basis(scale(S[t]), order)
        continuation_value[t] = ridge_regression(basis, value[t_next])
        value[t] = discount * where(cashflow[t] > continuation_value[t],
                                    cashflow[t], value[t_next])

`none` models a runtime failure inside `ridge_regression` (torch shape error
or singular system), which aborts the run. -/
def vc : ℕ → Option (List F × List F)
  | 0 => some ((cashflow cfg cfg.m).map (fun c => c * discount cfg), List.replicate cfg.n 0)
  | k + 1 =>
      (vc k).bind (fun p =>
        (ridge_regression cfg.order 100
          (chebyshev_basis (scale (S cfg (cfg.m - k - 1))) cfg.order) p.1).bind (fun c =>
            some (((whereFn (gtMask (cashflow cfg (cfg.m - k - 1)) c)
              (cashflow cfg (cfg.m - k - 1)) p.1).map (fun v => discount cfg * v)), c)))

/-- The reconstructed candidate payoff at time index `i` (`1 ≤ i ≤ m`):

    payoff = {t: where(continuation_value[t] > cashflow[t],
                       torch.zeros(n), cashflow[t]) for t in t_span}
-/
def payoffCol (i : ℕ) : Option (List F) :=
  (vc cfg (cfg.m - i)).map
    (fun p => whereFn (gtMask p.2 (cashflow cfg i)) (List.replicate cfg.n 0) (cashflow cfg i))

/-- `payoff = torch.stack(list(payoff.values()), dim=1)`: the `n × m` candidate
payoff matrix, one column per exercise date in time order. -/
def payoffMat : Option (List (List F)) :=
  ((List.range cfg.m).mapM (fun j => payoffCol cfg (j + 1))).map (fun cols => stack1 cols cfg.n)

/-- The reported price:

    payoff = first_one(payoff)
    discounted_payoff = {i: payoff[:, i] * torch.exp(-r * i * Δt) for i in range(m)}
    price = torch.sum(stacked_disc_payoffs) / n
-/
def price : Option F :=
  (payoffMat cfg).map (fun Pm =>
    (((List.range cfg.m).map (fun i =>
        (colL (first_one Pm) i).sum * cfg.fexp (-(cfg.r * (i : F) * Δt cfg)))).sum) / (cfg.n : F))

/-- Spec-side reference function for the Payoff Selector: keep the first
strictly positive entry of a row (in time order), zero out everything else. -/
def firstPosSelect : List F → List F
  | [] => []
  | a :: l => if 0 < a then a :: List.replicate l.length 0 else 0 :: firstPosSelect l

/-- The positivity mask `(x > 0).type(x.dtype)` of `first_one`. -/
def mask (x : List F) : List F := x.map (fun v => if 0 < v then (1 : F) else 0)

/-- The clamped cumulative product `sum_x` of `first_one`. -/
def sumx (x : List F) : List F :=
  (cumprod ((mask x).map (fun c => 1 - c))).map (fun v => min v 1)

/-- A concrete two-path, two-date run of the notebook at `F := ℝ` with
`torch.exp` and `np.sqrt` as external primitives: `Spot = 1`, `σ = 1`,
`r = 0`, `T = 2` (so `Δt = 1`), `order = 2`, `n = 2`, `m = 2`, and normal
draws `Z₀ = [9, 11]`, `Z₁ = [-9/10, 22/3]`, giving simulated prices
`S₁ = [10, 12]`, `S₂ = [1, 100]`.  The strike `Kv` stays a parameter. -/
noncomputable def runCfg (Kv : ℝ) : Cfg ℝ where
  fexp := Real.exp
  fsqrt := Real.sqrt
  Spot := 1
  σv := 1
  K := Kv
  r := 0
  T := 2
  order := 2
  n := 2
  m := 2
  Z := fun i => if i = 0 then [9, 11] else [-(9 / 10), 22 / 3]

/-! ## Theorems -/

theorem zipWith3_nil_left (f : F → F → F → F) (b c : List F) :
    zipWith3 f [] b c = [] := by
  cases b <;> cases c <;> rfl

theorem getD_replicate_zero (k j : ℕ) : (List.replicate k (0 : F)).getD j 0 = 0 := by
  by_cases h : j < k
  · rw [List.getD_eq_getElem _ _ (by simpa using h)]
    simp
  · exact List.getD_eq_default _ _ (by simpa using not_lt.1 h)

/-! ## Claims C5 and C7: the scaling step -/

theorem foldl_min_map {f : F → F} (hf : Monotone f) :
    ∀ (l : List F) (a : F), (l.map f).foldl min (f a) = f (l.foldl min a)
  | [], _ => rfl
  | b :: l, a => by
    simp only [List.map_cons, List.foldl_cons, ← hf.map_min]
    exact foldl_min_map hf l (min a b)

theorem foldl_max_map {f : F → F} (hf : Monotone f) :
    ∀ (l : List F) (a : F), (l.map f).foldl max (f a) = f (l.foldl max a)
  | [], _ => rfl
  | b :: l, a => by
    simp only [List.map_cons, List.foldl_cons, ← hf.map_max]
    exact foldl_max_map hf l (max a b)

theorem lmin_map_monotone {f : F → F} (hf : Monotone f) {x : List F} (hx : x ≠ []) :
    lmin (x.map f) = f (lmin x) := by
  cases x with
  | nil => exact absurd rfl hx
  | cons a l => simpa [lmin] using foldl_min_map hf l a

theorem lmax_map_monotone {f : F → F} (hf : Monotone f) {x : List F} (hx : x ≠ []) :
    lmax (x.map f) = f (lmax x) := by
  cases x with
  | nil => exact absurd rfl hx
  | cons a l => simpa [lmax] using foldl_max_map hf l a

theorem foldl_min_const (c : F) : ∀ (l : List F), (∀ v ∈ l, v = c) → l.foldl min c = c
  | [], _ => rfl
  | b :: l, h => by
    have hb : b = c := h b (List.mem_cons_self b l)
    rw [List.foldl_cons, hb, min_self]
    exact foldl_min_const c l (fun v hv => h v (List.mem_cons_of_mem b hv))

theorem foldl_max_const (c : F) : ∀ (l : List F), (∀ v ∈ l, v = c) → l.foldl max c = c
  | [], _ => rfl
  | b :: l, h => by
    have hb : b = c := h b (List.mem_cons_self b l)
    rw [List.foldl_cons, hb, max_self]
    exact foldl_max_const c l (fun v hv => h v (List.mem_cons_of_mem b hv))

theorem lmin_const {c : F} {l : List F} (h : ∀ v ∈ l, v = c) (hne : l ≠ []) : lmin l = c := by
  cases l with
  | nil => exact absurd rfl hne
  | cons a t =>
    have ha : a = c := h a (List.mem_cons_self a t)
    show t.foldl min a = c
    rw [ha]
    exact foldl_min_const c t (fun v hv => h v (List.mem_cons_of_mem a hv))

theorem lmax_const {c : F} {l : List F} (h : ∀ v ∈ l, v = c) (hne : l ≠ []) : lmax l = c := by
  cases l with
  | nil => exact absurd rfl hne
  | cons a t =>
    have ha : a = c := h a (List.mem_cons_self a t)
    show t.foldl max a = c
    rw [ha]
    exact foldl_max_const c t (fun v hv => h v (List.mem_cons_of_mem a hv))

/-- C7.  On a non-constant vector, `scale` is the affine map sending the
empirical minimum to `-1` and the empirical maximum to `+1`; consequently the
scaled vector has minimum `-1` and maximum `1`. -/
theorem scale_affine_min_max (x : List F) (hx : x ≠ []) (hr : lmin x < lmax x) :
    ∃ aa bb : F, 0 < aa
      ∧ scale x = x.map (fun v => aa * v + bb)
      ∧ aa * lmin x + bb = -1
      ∧ aa * lmax x + bb = 1
      ∧ lmin (scale x) = -1
      ∧ lmax (scale x) = 1 := by
  set m := lmin x with hm
  set M := lmax x with hM
  have hMm : M - m ≠ 0 := sub_ne_zero.2 (ne_of_gt hr)
  have hMmpos : 0 < M - m := sub_pos.2 hr
  refine ⟨2 / (M - m), -(1 / 2) * (2 / (M - m)) * (m + M), ?_, ?_, ?_, ?_, ?_, ?_⟩
  · positivity
  · rfl
  · field_simp
    ring
  · field_simp
    ring
  · have hmono : Monotone (fun v => 2 / (M - m) * v + -(1 / 2) * (2 / (M - m)) * (m + M)) :=
      fun u v huv => by
        apply add_le_add_right
        exact mul_le_mul_of_nonneg_left huv (by positivity)
    have := lmin_map_monotone hmono hx
    rw [show scale x = x.map (fun v => 2 / (M - m) * v + -(1 / 2) * (2 / (M - m)) * (m + M))
      from rfl, this]
    show 2 / (M - m) * m + -(1 / 2) * (2 / (M - m)) * (m + M) = -1
    field_simp
    ring
  · have hmono : Monotone (fun v => 2 / (M - m) * v + -(1 / 2) * (2 / (M - m)) * (m + M)) :=
      fun u v huv => by
        apply add_le_add_right
        exact mul_le_mul_of_nonneg_left huv (by positivity)
    have := lmax_map_monotone hmono hx
    rw [show scale x = x.map (fun v => 2 / (M - m) * v + -(1 / 2) * (2 / (M - m)) * (m + M))
      from rfl, this]
    show 2 / (M - m) * M + -(1 / 2) * (2 / (M - m)) * (m + M) = 1
    field_simp
    ring

/-- Witness for C7 at `x = [1, 3]`: `scale [1, 3] = [-1, 1]`. -/
theorem scale_affine_min_max_witness :
    (([(1 : ℚ), 3] : List ℚ) ≠ [] ∧ lmin [(1 : ℚ), 3] < lmax [(1 : ℚ), 3])
    ∧ (∃ aa bb : ℚ, 0 < aa
      ∧ scale [(1 : ℚ), 3] = [(1 : ℚ), 3].map (fun v => aa * v + bb)
      ∧ aa * lmin [(1 : ℚ), 3] + bb = -1
      ∧ aa * lmax [(1 : ℚ), 3] + bb = 1
      ∧ lmin (scale [(1 : ℚ), 3]) = -1
      ∧ lmax (scale [(1 : ℚ), 3]) = 1) := by
  refine ⟨⟨by simp, by norm_num [lmin, lmax]⟩, ?_⟩
  exact scale_affine_min_max [(1 : ℚ), 3] (by simp) (by norm_num [lmin, lmax])

/-- C5 (amended).  `scale` performs no zero-range check: on a constant vector
it silently computes with the zero denominator `xmax - xmin = 0` and returns a
plain vector (under the exact-field totalization `2 / 0 = 0` the result is the
all-zero vector; under IEEE floats the entries are `±Inf`/`NaN`).  No error is
signalled. -/
theorem scale_constant_silently_returns (l : List F) (c : F) (h : ∀ v ∈ l, v = c) :
    scale l = List.replicate l.length 0 := by
  cases hl : l with
  | nil => rfl
  | cons a t =>
    have hne : l ≠ [] := by rw [hl]; exact List.cons_ne_nil a t
    have hmin : lmin l = c := lmin_const h hne
    have hmax : lmax l = c := lmax_const h hne
    rw [← hl]
    show l.map (fun v => 2 / (lmax l - lmin l) * v
      + -(1 / 2) * (2 / (lmax l - lmin l)) * (lmin l + lmax l)) = List.replicate l.length 0
    rw [hmin, hmax, sub_self, div_zero]
    refine List.eq_replicate_iff.2 ⟨by simp, ?_⟩
    intro b hb
    rcases List.mem_map.1 hb with ⟨v, _, rfl⟩
    ring

/-- Witness for C5 (amended) at `[7, 7]`. -/
theorem scale_constant_silently_returns_witness :
    (∀ v ∈ [(7 : ℚ), 7], v = 7) ∧ scale [(7 : ℚ), 7] = List.replicate 2 0 :=
  ⟨by norm_num, scale_constant_silently_returns [(7 : ℚ), 7] 7 (by norm_num)⟩

/-- Counterexample to C5 as stated: on the constant vector `[5, 5, 5]` the
scaling step does not detect the degenerate input and does not abort — it
silently returns a vector (the zero vector in the exact-field model of the
float division `2 / 0`). -/
theorem scale_constant_counterexample :
    scale [(5 : ℚ), 5, 5] = [0, 0, 0] := by
  norm_num [scale, lmin, lmax]

/-! ## Claim C6: the Basis Constructor `chebyshev_basis` -/

theorem getD_range_map (g : ℕ → F) (n j : ℕ) (hj : j < n) :
    ((List.range n).map g).getD j 0 = g j := by
  rw [List.getD_eq_getElem _ _ (by simpa using hj)]
  simp

/-- C6 (amended).  For target degree `M ≥ 2` the basis has one row per entry
of `x`, each row of length exactly `M`, with column `0` all-ones, column `1`
equal to `x` and column `j` satisfying the Chebyshev recurrence
`T_j = 2·x·T_{j-1} − T_{j-2}` for `2 ≤ j < M`.  (For `M = 1` the source still
emits two columns — see the counterexample — because columns `0` and `1` are
created unconditionally before the `range(2, k)` loop.) -/
theorem chebyshev_basis_spec (x : List F) (M : ℕ) (hM : 2 ≤ M) (p : ℕ) (hp : p < x.length) :
    (chebyshev_basis x M).length = x.length
    ∧ ((chebyshev_basis x M).getD p []).length = M
    ∧ ((chebyshev_basis x M).getD p []).getD 0 0 = 1
    ∧ ((chebyshev_basis x M).getD p []).getD 1 0 = x.getD p 0
    ∧ ∀ j, 2 ≤ j → j < M →
        ((chebyshev_basis x M).getD p []).getD j 0
          = 2 * x.getD p 0 * (((chebyshev_basis x M).getD p []).getD (j - 1) 0)
            - (((chebyshev_basis x M).getD p []).getD (j - 2) 0) := by
  have hmax : max 2 M = M := max_eq_right hM
  have hrow : (chebyshev_basis x M).getD p []
      = (List.range (max 2 M)).map (fun j => chebT j (x.getD p 0)) := by
    rw [chebyshev_basis, List.getD_eq_getElem _ _ (by simpa using hp)]
    rw [List.getElem_map]
    congr 1
    rw [List.getD_eq_getElem _ _ hp]
  refine ⟨by simp [chebyshev_basis], ?_, ?_, ?_, ?_⟩
  · rw [hrow]; simp [hmax]
  · rw [hrow, hmax, getD_range_map _ _ _ (lt_of_lt_of_le (by norm_num) hM)]
    rfl
  · rw [hrow, hmax, getD_range_map _ _ _ (lt_of_lt_of_le (by norm_num) hM)]
    rfl
  · intro j h2j hjM
    obtain ⟨jj, rfl⟩ : ∃ jj, j = jj + 2 := ⟨j - 2, by omega⟩
    rw [hrow, hmax, getD_range_map _ _ _ hjM,
      getD_range_map _ _ _ (by omega : jj + 2 - 1 < M),
      getD_range_map _ _ _ (by omega : jj + 2 - 2 < M)]
    have h1 : jj + 2 - 1 = jj + 1 := by omega
    have h2 : jj + 2 - 2 = jj := by omega
    rw [h1, h2]
    rfl

/-- Witness for C6 (amended) at `x = [1/2]`, `M = 3`: the basis is
`[[1, 1/2, -1/2]]` and the recurrence holds at column 2. -/
theorem chebyshev_basis_spec_witness :
    ((2 : ℕ) ≤ 3 ∧ (0 : ℕ) < ([(1 / 2 : ℚ)] : List ℚ).length)
    ∧ chebyshev_basis [(1 / 2 : ℚ)] 3 = [[1, 1 / 2, -1 / 2]]
    ∧ ((chebyshev_basis [(1 / 2 : ℚ)] 3).getD 0 []).getD 2 0
        = 2 * ([(1 / 2 : ℚ)].getD 0 0)
            * (((chebyshev_basis [(1 / 2 : ℚ)] 3).getD 0 []).getD 1 0)
          - (((chebyshev_basis [(1 / 2 : ℚ)] 3).getD 0 []).getD 0 0) := by
  refine ⟨⟨by norm_num, by norm_num⟩, ?_, ?_⟩
  · show [(List.range 3).map (fun j => chebT j (1 / 2 : ℚ))] = [[1, 1 / 2, -1 / 2]]
    norm_num [List.range_succ, chebT]
  · exact (chebyshev_basis_spec [(1 / 2 : ℚ)] 3 (by norm_num) 0 (by norm_num)).2.2.2.2
      2 (by norm_num) (by norm_num)

/-- Counterexample to C6 as stated: at target degree `M = 1` the constructed
row has length `2`, not `1` — the source creates Chebyshev columns `0` and `1`
unconditionally. -/
theorem chebyshev_basis_degree_one_counterexample :
    ((chebyshev_basis [(0 : ℚ)] 1).getD 0 []).length = 2
    ∧ ¬ (((chebyshev_basis [(0 : ℚ)] 1).getD 0 []).length = 1) := by
  constructor <;> simp [chebyshev_basis]

/-! ## Claim C4: the Regularized Regressor `ridge_regression` -/

theorem dotProduct_self_nonneg {nn : ℕ} (v : Fin nn → F) : 0 ≤ v ⬝ᵥ v :=
  Finset.sum_nonneg fun i _ => mul_self_nonneg (v i)

theorem dotProduct_self_pos {nn : ℕ} {v : Fin nn → F} (hv : v ≠ 0) : 0 < v ⬝ᵥ v := by
  obtain ⟨i, hi⟩ : ∃ i, v i ≠ 0 := by
    by_contra hall
    push_neg at hall
    exact hv (funext hall)
  refine Finset.sum_pos' (fun j _ => mul_self_nonneg (v j)) ⟨i, Finset.mem_univ i, ?_⟩
  exact mul_self_pos.2 hi

/-- For `λ > 0` the regularized normal matrix `XᵀX + λI` is nonsingular: a
nonzero kernel vector `v` would give `0 = ‖Xv‖² + λ‖v‖² > 0`. -/
theorem ridge_matrix_det_ne_zero {nn M : ℕ} (lam : F) (hlam : 0 < lam)
    (Xm : Matrix (Fin nn) (Fin M) F) :
    (Xmᵀ * Xm + lam • (1 : Matrix (Fin M) (Fin M) F)).det ≠ 0 := by
  intro h0
  obtain ⟨v, hv, hAv⟩ := (Matrix.exists_mulVec_eq_zero_iff).2 h0
  have hq : v ⬝ᵥ ((Xmᵀ * Xm + lam • (1 : Matrix (Fin M) (Fin M) F)) *ᵥ v) = 0 := by
    rw [hAv, Matrix.dotProduct_zero]
  rw [Matrix.add_mulVec, Matrix.dotProduct_add, Matrix.smul_mulVec_assoc,
    Matrix.one_mulVec, dotProduct_smul, ← Matrix.mulVec_mulVec,
    Matrix.dotProduct_mulVec, Matrix.vecMul_transpose] at hq
  have h1 : 0 ≤ (Xm *ᵥ v) ⬝ᵥ (Xm *ᵥ v) := dotProduct_self_nonneg _
  have h2 : 0 < lam • (v ⬝ᵥ v) := by
    rw [smul_eq_mul]
    exact mul_pos hlam (dotProduct_self_pos hv)
  linarith

/-- The `β` returned by the adjugate-based solve satisfies the ridge normal
equations. -/
theorem ridge_beta_normal_equations {M : ℕ} (A : Matrix (Fin M) (Fin M) F)
    (b : Fin M → F) (hdet : A.det ≠ 0) :
    A *ᵥ ((A.det)⁻¹ • (A.adjugate *ᵥ b)) = b := by
  rw [Matrix.mulVec_smul, Matrix.mulVec_mulVec, Matrix.mul_adjugate,
    Matrix.smul_mulVec_assoc, Matrix.one_mulVec, smul_smul,
    inv_mul_cancel₀ hdet, one_smul]

/-! ### Correspondence between the list-level tensor operations and matrices -/

theorem getD_range_map_gen {α : Type} (g : ℕ → α) (d : α) (nn j : ℕ) (hj : j < nn) :
    ((List.range nn).map g).getD j d = g j := by
  rw [List.getD_eq_getElem _ _ (by simpa using hj)]
  simp

theorem getD_map_lt {α β : Type} (f : α → β) (l : List α) (i : ℕ) (d : α) (d' : β)
    (hi : i < l.length) :
    (l.map f).getD i d' = f (l.getD i d) := by
  rw [List.getD_eq_getElem _ _ (by simpa using hi), List.getD_eq_getElem _ _ hi]
  simp

theorem zip_mul_sum (j : ℕ) :
    ∀ (ar : List F) (B : List (List F)), ar.length = B.length →
      ((ar.zip B).map (fun p => p.1 * (p.2.getD j 0))).sum
        = ∑ k ∈ Finset.range ar.length, ar.getD k 0 * ((B.getD k []).getD j 0)
  | [], [], _ => by simp
  | [], b :: B, h => by simp at h
  | a :: ar, [], h => by simp at h
  | a :: ar, b :: B, h => by
    rw [List.zip_cons_cons, List.map_cons, List.sum_cons,
      zip_mul_sum j ar B (by simpa using h)]
    rw [List.length_cons, Finset.sum_range_succ']
    simp [add_comm]

theorem matMulL_getD_row (A B : List (List F)) (i : ℕ) (hi : i < A.length) :
    (matMulL A B).getD i []
      = (List.range (numCols B)).map (fun j =>
          (((A.getD i []).zip B).map (fun p => p.1 * (p.2.getD j 0))).sum) := by
  rw [matMulL, getD_map_lt _ A i [] [] hi]

theorem getD_mem_of_lt {α : Type} (l : List α) (i : ℕ) (d : α) (hi : i < l.length) :
    l.getD i d ∈ l := by
  rw [List.getD_eq_getElem _ _ hi]
  exact List.getElem_mem hi

/-- Entry formula for the list-level matrix product, as a Mathlib matrix. -/
theorem toMat_matMulL (A B : List (List F)) (p q s : ℕ)
    (hA : A.length = p) (hAr : ∀ r ∈ A, r.length = q) (hB : B.length = q)
    (hcols : numCols B = s) :
    toMat p s (matMulL A B) = toMat p q A * toMat q s B := by
  ext i j
  have hiA : (i : ℕ) < A.length := hA ▸ i.isLt
  have hrlen : (A.getD (i : ℕ) []).length = q := hAr _ (getD_mem_of_lt A (i : ℕ) [] hiA)
  show ((matMulL A B).getD (i : ℕ) []).getD (j : ℕ) 0 = _
  rw [matMulL_getD_row A B (i : ℕ) hiA, hcols,
    getD_range_map_gen (fun jj => (((A.getD (i : ℕ) []).zip B).map
      (fun pp => pp.1 * (pp.2.getD jj 0))).sum) 0 s (j : ℕ) j.isLt,
    zip_mul_sum (j : ℕ) (A.getD (i : ℕ) []) B (by rw [hrlen, hB]), hrlen]
  rw [Matrix.mul_apply, ← Fin.sum_univ_eq_sum_range
    (fun kk => (A.getD (i : ℕ) []).getD kk 0 * ((B.getD kk []).getD (j : ℕ) 0)) q]
  rfl

theorem length_matMulL (A B : List (List F)) : (matMulL A B).length = A.length := by
  simp [matMulL]

theorem matMulL_rows_length (A B : List (List F)) :
    ∀ r ∈ matMulL A B, r.length = numCols B := by
  intro r hr
  rcases List.mem_map.1 hr with ⟨ar, _, rfl⟩
  simp

theorem length_stack1 (cols : List (List F)) (nrows : ℕ) :
    (stack1 cols nrows).length = nrows := by
  simp [stack1]

theorem stack1_getD_row (cols : List (List F)) (nrows p : ℕ) (hp : p < nrows) :
    (stack1 cols nrows).getD p [] = cols.map (fun c => c.getD p 0) := by
  rw [stack1, getD_range_map_gen _ _ _ _ hp]

theorem stack1_rows_length (cols : List (List F)) (nrows : ℕ) :
    ∀ r ∈ stack1 cols nrows, r.length = cols.length := by
  intro r hr
  rcases List.mem_map.1 hr with ⟨p, _, rfl⟩
  simp

/-- `stack1` of the row-list of `X` (what the source writes
`X.transpose(1, 0)`) is the matrix transpose. -/
theorem toMat_stack1_transpose (X : List (List F)) (nn q : ℕ) (hX : X.length = nn) :
    toMat q nn (stack1 X q) = (toMat nn q X)ᵀ := by
  ext i j
  show ((stack1 X q).getD (i : ℕ) []).getD (j : ℕ) 0 = (X.getD (j : ℕ) []).getD (i : ℕ) 0
  rw [stack1_getD_row X q (i : ℕ) i.isLt,
    getD_map_lt (fun c => c.getD (i : ℕ) 0) X (j : ℕ) [] 0 (by rw [hX]; exact j.isLt)]

theorem toMat_zipWith_add (A B : List (List F)) (p : ℕ)
    (hA : A.length = p) (hB : B.length = p)
    (hAr : ∀ r ∈ A, r.length = p) (hBr : ∀ r ∈ B, r.length = p) :
    toMat p p (A.zipWith (fun ra rb => ra.zipWith (· + ·) rb) B)
      = toMat p p A + toMat p p B := by
  ext i j
  have hiA : (i : ℕ) < A.length := hA ▸ i.isLt
  have hiB : (i : ℕ) < B.length := hB ▸ i.isLt
  have hlen : (i : ℕ) < (A.zipWith (fun ra rb => ra.zipWith (· + ·) rb) B).length := by
    rw [List.length_zipWith]
    omega
  have hrA : A[(i : ℕ)].length = p := hAr _ (List.getElem_mem hiA)
  have hrB : B[(i : ℕ)].length = p := hBr _ (List.getElem_mem hiB)
  show ((A.zipWith (fun ra rb => ra.zipWith (· + ·) rb) B).getD (i : ℕ) []).getD (j : ℕ) 0
      = (A.getD (i : ℕ) []).getD (j : ℕ) 0 + (B.getD (i : ℕ) []).getD (j : ℕ) 0
  rw [List.getD_eq_getElem _ _ hlen, List.getElem_zipWith,
    List.getD_eq_getElem (d := []) _ hiA, List.getD_eq_getElem (d := []) _ hiB]
  have hj : (j : ℕ) < min (A[(i : ℕ)].length) (B[(i : ℕ)].length) := by
    rw [hrA, hrB, min_self]
    exact j.isLt
  rw [List.getD_eq_getElem _ _ (by rw [List.length_zipWith]; exact hj),
    List.getElem_zipWith,
    List.getD_eq_getElem (d := 0) _ (lt_of_lt_of_le hj (min_le_left _ _)),
    List.getD_eq_getElem (d := 0) _ (lt_of_lt_of_le hj (min_le_right _ _))]

theorem matAddL_some (A B : List (List F)) (hlen : A.length = B.length)
    (hrows : ∀ p ∈ A.zip B, p.1.length = p.2.length) :
    matAddL A B = some (A.zipWith (fun ra rb => ra.zipWith (· + ·) rb) B) := by
  rw [matAddL, if_pos ⟨hlen, hrows⟩]

theorem getD_ofFn_single {M : ℕ} (g : Fin M → F) (k : ℕ) (hk : k < M) :
    ((List.ofFn (fun i => [g i])).getD k []).getD 0 0 = g ⟨k, hk⟩ := by
  have h1 : (List.ofFn (fun i => [g i])).getD k [] = [g ⟨k, hk⟩] := by
    rw [List.getD_eq_getElem (List.ofFn (fun i => [g i])) []
      (by rw [List.length_ofFn]; exact hk)]
    exact List.getElem_ofFn _ _ _
  rw [h1]
  rfl

theorem numCols_ofFn_single {M : ℕ} (g : Fin M → F) (hM : 0 < M) :
    numCols (List.ofFn (fun i => [g i])) = 1 := by
  have h1 : (List.ofFn (fun i => [g i])).getD 0 [] = [g ⟨0, hM⟩] := by
    rw [List.getD_eq_getElem (List.ofFn (fun i => [g i])) []
      (by rw [List.length_ofFn]; exact hM)]
    exact List.getElem_ofFn _ _ _
  rw [numCols, h1]
  rfl

theorem zipWith_add_rows_length (A B : List (List F)) (p : ℕ)
    (hAr : ∀ r ∈ A, r.length = p) (hBr : ∀ r ∈ B, r.length = p) :
    ∀ r ∈ A.zipWith (fun ra rb => ra.zipWith (· + ·) rb) B, r.length = p := by
  intro r hr
  rcases List.mem_iff_getElem.1 hr with ⟨i, hi, rfl⟩
  have hi' : i < min A.length B.length := by
    have := hi
    rwa [List.length_zipWith] at this
  rw [List.getElem_zipWith, List.length_zipWith,
    hAr _ (List.getElem_mem (lt_of_lt_of_le hi' (min_le_left _ _))),
    hBr _ (List.getElem_mem (lt_of_lt_of_le hi' (min_le_right _ _))), min_self]

theorem mulVec_eq_range_sum {nn M : ℕ} (Xm : Matrix (Fin nn) (Fin M) F)
    (v : Fin M → F) (p : Fin nn) (g : ℕ → F) (hg : ∀ k : Fin M, g (k : ℕ) = Xm p k * v k) :
    (Xm *ᵥ v) p = ∑ k ∈ Finset.range M, g k := by
  rw [← Fin.sum_univ_eq_sum_range g M]
  show (fun j => Xm p j) ⬝ᵥ v = _
  rw [Matrix.dotProduct]
  exact Finset.sum_congr rfl (fun k _ => (hg k).symm)

theorem toMat_smulM_eyeL (lam : F) (M : ℕ) :
    toMat M M (smulM lam (eyeL M)) = lam • (1 : Matrix (Fin M) (Fin M) F) := by
  ext i j
  show (((smulM lam (eyeL M)).getD (i : ℕ) []).getD (j : ℕ) 0) = lam * (1 : Matrix (Fin M) (Fin M) F) i j
  rw [smulM, getD_map_lt _ (eyeL M) (i : ℕ) [] [] (by simp [eyeL, i.isLt]),
    eyeL, getD_range_map_gen _ [] M (i : ℕ) i.isLt,
    getD_map_lt _ _ (j : ℕ) 0 0 (by simp [j.isLt]),
    getD_range_map_gen _ 0 M (j : ℕ) j.isLt, Matrix.one_apply]
  by_cases hij : (i : ℕ) = (j : ℕ)
  · rw [if_pos hij, if_pos (Fin.ext hij)]
  · rw [if_neg hij, if_neg (fun h => hij (congrArg Fin.val h)), mul_zero]

/-- C4 (amended).  When the design matrix has exactly `order` columns — the
global width hard-wired by `torch.eye(order)` in the source — and `λ > 0`,
`ridge_regression` succeeds and returns the fitted values `X·β` for a `β`
solving the ridge normal equations `(XᵀX + λI)β = XᵀY`.  (For any other
column count the call fails; see the counterexample.) -/
theorem ridge_regression_normal_equations
    (order : ℕ) (lam : F) (X : List (List F)) (Y : List F)
    (horder : 0 < order) (hlam : 0 < lam) (hX0 : X ≠ [])
    (hXr : ∀ row ∈ X, row.length = order) (hY : Y.length = X.length) :
    ∃ β : Fin order → F,
      ((toMat X.length order X)ᵀ * toMat X.length order X
          + lam • (1 : Matrix (Fin order) (Fin order) F)) *ᵥ β
        = (toMat X.length order X)ᵀ *ᵥ (fun i => Y.getD (i : ℕ) 0)
      ∧ ∃ yhat : List F,
          ridge_regression order lam X Y = some yhat
          ∧ yhat.length = X.length
          ∧ ∀ p : Fin X.length,
              yhat.getD (p : ℕ) 0 = ((toMat X.length order X) *ᵥ β) p := by
  have hnn0 : 0 < X.length := List.length_pos.2 hX0
  set nn := X.length with hnn
  set Xm := toMat nn order X with hXmdef
  set Yv : Fin nn → F := fun i => Y.getD (i : ℕ) 0 with hYvdef
  have hnc : numCols X = order := hXr _ (getD_mem_of_lt X 0 [] hnn0)
  set Xt := stack1 X (numCols X) with hXtdef
  have hXtlen : Xt.length = order := by rw [hXtdef, hnc, length_stack1]
  have hXtrows : ∀ r ∈ Xt, r.length = nn := by
    rw [hXtdef]
    exact stack1_rows_length X _
  have hXtmat : toMat order nn Xt = Xmᵀ := by
    rw [hXtdef, hnc]
    exact toMat_stack1_transpose X nn order rfl
  -- the regularized normal matrix, at the list level
  have hXtXlen : (matMulL Xt X).length = order := by rw [length_matMulL, hXtlen]
  have hXtXrows : ∀ r ∈ matMulL Xt X, r.length = order := by
    intro r hr
    rw [matMulL_rows_length Xt X r hr, hnc]
  have hsl : (smulM lam (eyeL order)).length = order := by simp [smulM, eyeL]
  have hsr : ∀ r ∈ smulM lam (eyeL order), r.length = order := by
    intro r hr
    rcases List.mem_map.1 hr with ⟨row, hrow, rfl⟩
    rcases List.mem_map.1 hrow with ⟨i, _, rfl⟩
    simp
  set Asum := (matMulL Xt X).zipWith (fun ra rb => ra.zipWith (· + ·) rb)
    (smulM lam (eyeL order)) with hAsumdef
  have hadd : matAddL (matMulL Xt X) (smulM lam (eyeL order)) = some Asum := by
    refine matAddL_some _ _ (by rw [hXtXlen, hsl]) ?_
    intro p hp
    rcases List.of_mem_zip hp with ⟨h1, h2⟩
    rw [hXtXrows _ h1, hsr _ h2]
  have hAsumLen : Asum.length = order := by
    rw [hAsumdef, List.length_zipWith, hXtXlen, hsl, min_self]
  have hAsumRows : ∀ r ∈ Asum, r.length = order :=
    zipWith_add_rows_length _ _ order hXtXrows hsr
  have hAsumMat : toMat order order Asum = Xmᵀ * Xm + lam • 1 := by
    rw [hAsumdef, toMat_zipWith_add _ _ order hXtXlen hsl hXtXrows hsr,
      toMat_matMulL Xt X order nn order hXtlen hXtrows rfl hnc, hXtmat,
      toMat_smulM_eyeL]
  have hdet : (toMat order order Asum).det ≠ 0 := by
    rw [hAsumMat]
    exact ridge_matrix_det_ne_zero lam hlam Xm
  -- the right-hand side X^T Y, at the list level
  set YY := Y.map (fun y => [y]) with hYYdef
  have hYlen : 0 < Y.length := by rw [hY]; exact hnn0
  have hB2len : (matMulL Xt YY).length = order := by rw [length_matMulL, hXtlen]
  set bv : Fin order → F := fun j => ((matMulL Xt YY).getD (j : ℕ) []).getD 0 0 with hbvdef
  have hncYY : numCols YY = 1 := by
    rw [hYYdef, numCols, getD_map_lt (fun y => [y]) Y 0 0 [] hYlen]
    rfl
  have hbv : bv = Xmᵀ *ᵥ Yv := by
    funext j
    have hjXt : (j : ℕ) < Xt.length := by rw [hXtlen]; exact j.isLt
    have hrowlen : (Xt.getD (j : ℕ) []).length = nn :=
      hXtrows _ (getD_mem_of_lt Xt (j : ℕ) [] hjXt)
    have hsum : bv j = ∑ k ∈ Finset.range nn,
        (Xt.getD (j : ℕ) []).getD k 0 * ((YY.getD k []).getD 0 0) := by
      rw [hbvdef]
      show ((matMulL Xt YY).getD (j : ℕ) []).getD 0 0 = _
      rw [matMulL_getD_row Xt YY (j : ℕ) hjXt, hncYY,
        getD_range_map_gen _ 0 1 0 (by norm_num),
        zip_mul_sum 0 (Xt.getD (j : ℕ) []) YY (by rw [hrowlen, hYYdef, List.length_map, hY]),
        hrowlen]
    rw [hsum, (mulVec_eq_range_sum Xmᵀ Yv j _ ?_).symm]
    intro k
    have hkX : (k : ℕ) < X.length := k.isLt
    have hXtrow : Xt.getD (j : ℕ) [] = X.map (fun c => c.getD (j : ℕ) 0) := by
      rw [hXtdef, hnc, stack1_getD_row X order (j : ℕ) j.isLt]
    rw [hXtrow, getD_map_lt (fun c => c.getD (j : ℕ) 0) X (k : ℕ) [] 0 hkX,
      hYYdef, getD_map_lt (fun y => [y]) Y (k : ℕ) 0 [] (by rw [hY]; exact hkX)]
    rfl
  -- the solve step
  set βv : Fin order → F :=
    ((toMat order order Asum).det)⁻¹ • ((toMat order order Asum).adjugate *ᵥ bv)
    with hβvdef
  have hsolve : solveSq order Asum (matMulL Xt YY) = some (List.ofFn (fun i => [βv i])) := by
    rw [solveSq, if_pos ⟨hAsumLen, hAsumRows, hB2len⟩]
    rw [if_neg hdet]
  -- the normal equations
  have hnormal : (Xmᵀ * Xm + lam • (1 : Matrix (Fin order) (Fin order) F)) *ᵥ βv
      = Xmᵀ *ᵥ Yv := by
    rw [← hAsumMat, ← hbv, hβvdef]
    exact ridge_beta_normal_equations (toMat order order Asum) bv hdet
  refine ⟨βv, hnormal, (matMulL X (List.ofFn (fun i => [βv i]))).map (fun r => r.getD 0 0),
    ?_, ?_, ?_⟩
  · show ridge_regression order lam X Y = _
    rw [ridge_regression]
    show (matAddL (matMulL (stack1 X (numCols X)) X) (smulM lam (eyeL order))).bind _ = _
    rw [← hXtdef, hadd, Option.some_bind, hsolve]
    rfl
  · rw [List.length_map, length_matMulL]
  · intro p
    have hpX : (p : ℕ) < X.length := p.isLt
    have hplen : (p : ℕ) < (matMulL X (List.ofFn (fun i => [βv i]))).length := by
      rw [length_matMulL]; exact hpX
    have hXplen : (X.getD (p : ℕ) []).length = order :=
      hXr _ (getD_mem_of_lt X (p : ℕ) [] hpX)
    rw [getD_map_lt (fun r => r.getD 0 0) _ (p : ℕ) [] 0 hplen,
      matMulL_getD_row X _ (p : ℕ) hpX, numCols_ofFn_single βv horder,
      getD_range_map_gen _ 0 1 0 (by norm_num),
      zip_mul_sum 0 (X.getD (p : ℕ) []) _ (by rw [hXplen, List.length_ofFn]),
      hXplen, mulVec_eq_range_sum Xm βv p
        (fun k => (X.getD (p : ℕ) []).getD k 0
          * (((List.ofFn (fun i => [βv i])).getD k []).getD 0 0)) ?_]
    intro k
    show (X.getD (p : ℕ) []).getD (k : ℕ) 0
        * (((List.ofFn (fun i => [βv i])).getD (k : ℕ) []).getD 0 0) = Xm p k * βv k
    rw [getD_ofFn_single βv (k : ℕ) k.isLt]
    rfl

/-- Witness for C4 (amended): a concrete 2×2 system with `order = 2`,
`λ = 1`. -/
theorem ridge_regression_normal_equations_witness :
    ((0 : ℕ) < 2 ∧ (0 : ℚ) < 1 ∧ ([[(1 : ℚ), 0], [0, 1]] : List (List ℚ)) ≠ []
      ∧ (∀ row ∈ [[(1 : ℚ), 0], [0, 1]], row.length = 2)
      ∧ ([(1 : ℚ), 1] : List ℚ).length = ([[(1 : ℚ), 0], [0, 1]] : List (List ℚ)).length)
    ∧ (∃ β : Fin 2 → ℚ,
        ((toMat ([[(1 : ℚ), 0], [0, 1]] : List (List ℚ)).length 2 [[(1 : ℚ), 0], [0, 1]])ᵀ
            * toMat ([[(1 : ℚ), 0], [0, 1]] : List (List ℚ)).length 2 [[(1 : ℚ), 0], [0, 1]]
            + (1 : ℚ) • (1 : Matrix (Fin 2) (Fin 2) ℚ)) *ᵥ β
          = (toMat ([[(1 : ℚ), 0], [0, 1]] : List (List ℚ)).length 2
              [[(1 : ℚ), 0], [0, 1]])ᵀ *ᵥ (fun i => ([(1 : ℚ), 1] : List ℚ).getD (i : ℕ) 0)
        ∧ ∃ yhat : List ℚ,
            ridge_regression 2 1 [[(1 : ℚ), 0], [0, 1]] [1, 1] = some yhat
            ∧ yhat.length = ([[(1 : ℚ), 0], [0, 1]] : List (List ℚ)).length
            ∧ ∀ p : Fin ([[(1 : ℚ), 0], [0, 1]] : List (List ℚ)).length,
                yhat.getD (p : ℕ) 0
                  = ((toMat ([[(1 : ℚ), 0], [0, 1]] : List (List ℚ)).length 2
                      [[(1 : ℚ), 0], [0, 1]]) *ᵥ β) p) := by
  refine ⟨⟨by norm_num, by norm_num, by simp, ?_, by simp⟩, ?_⟩
  · intro row hrow
    rcases List.mem_cons.1 hrow with rfl | hrow'
    · rfl
    · rcases List.mem_cons.1 hrow' with rfl | h
      · rfl
      · simp at h
  · exact ridge_regression_normal_equations 2 1 [[(1 : ℚ), 0], [0, 1]] [1, 1]
      (by norm_num) (by norm_num) (by simp)
      (by
        intro row hrow
        rcases List.mem_cons.1 hrow with rfl | hrow'
        · rfl
        · rcases List.mem_cons.1 hrow' with rfl | h
          · rfl
          · simp at h)
      (by simp)

/-- Counterexample to C4 as stated: the identity matrix in `ridge_regression`
has the fixed size `order` (the notebook global, 25), so the regressor is
*not* defined for every column count `M ≥ 1`: with a design matrix of `M = 2`
columns the tensor addition `X.T @ X + λ * torch.eye(order)` has mismatched
shapes `(2, 2)` vs `(25, 25)` and the call fails (torch raises; modelled by
`none`). -/
theorem ridge_regression_fixed_width_counterexample :
    ridge_regression 25 (100 : ℚ) [[1, 0], [0, 1]] [1, 1] = none := by
  have h1 : matAddL
      (matMulL (stack1 [[(1 : ℚ), 0], [0, 1]] (numCols [[(1 : ℚ), 0], [0, 1]]))
        [[(1 : ℚ), 0], [0, 1]])
      (smulM (100 : ℚ) (eyeL 25)) = none := by
    rw [matAddL, if_neg]
    intro hcon
    have hlen := hcon.1
    rw [length_matMulL, length_stack1] at hlen
    simp [smulM, eyeL, numCols] at hlen
  simp only [ridge_regression]
  rw [h1]
  rfl


theorem whereFn_gtMask :
    ∀ (a b x y : List F), b.length = a.length → x.length = a.length → y.length = a.length →
      (whereFn (gtMask a b) x y).length = a.length
      ∧ ∀ p, p < a.length → (whereFn (gtMask a b) x y).getD p 0
          = if a.getD p 0 > b.getD p 0 then x.getD p 0 else y.getD p 0
  | [], b, x, y, _, _, _ => by
    constructor
    · show (zipWith3 _ (gtMask [] b) x y).length = 0
      have : gtMask ([] : List F) b = [] := rfl
      rw [this, zipWith3_nil_left]
      rfl
    · intro p hp
      exact absurd hp (Nat.not_lt_zero p)
  | a0 :: as, [], x, y, hb, _, _ => by simp at hb
  | a0 :: as, b0 :: bs, [], y, _, hx, _ => by simp at hx
  | a0 :: as, b0 :: bs, x0 :: xs, [], _, _, hy => by simp at hy
  | a0 :: as, b0 :: bs, x0 :: xs, y0 :: ys, hb, hx, hy => by
    have ih := whereFn_gtMask as bs xs ys (by simpa using hb) (by simpa using hx)
      (by simpa using hy)
    have hcons : whereFn (gtMask (a0 :: as) (b0 :: bs)) (x0 :: xs) (y0 :: ys)
        = ((if a0 > b0 then (1 : F) else 0) * x0
            + (1 - (if a0 > b0 then (1 : F) else 0)) * y0)
          :: whereFn (gtMask as bs) xs ys := rfl
    constructor
    · rw [hcons]
      simpa using ih.1
    · intro p hp
      cases p with
      | zero =>
        rw [hcons]
        simp only [List.getD_cons_zero]
        by_cases h : a0 > b0
        · rw [if_pos h, if_pos h]
          ring
        · rw [if_neg h, if_neg h]
          ring
      | succ p =>
        rw [hcons]
        simp only [List.getD_cons_succ]
        exact ih.2 p (by simpa using hp)

/-- C3.  The Backward Induction Engine: the terminal state (`vc cfg 0`, date
`T`) has continuation value the zero vector and value the terminal cashflow
times the per-step discount factor; and each backward transition stores as
continuation value exactly the ridge-regression fit of the next value vector
on the Chebyshev basis of the scaled prices, and as value, elementwise per
path, `discount × cashflow` when `cashflow > continuation` (strictly) and
`discount × value[t_next]` otherwise — ties go to continuation. -/
theorem backward_induction_engine (cfg : Cfg F) :
    (vc cfg 0 = some ((cashflow cfg cfg.m).map (fun c => c * discount cfg),
        List.replicate cfg.n 0))
    ∧ ∀ k v cprev c, vc cfg k = some (v, cprev) →
        ridge_regression cfg.order 100
          (chebyshev_basis (scale (S cfg (cfg.m - k - 1))) cfg.order) v = some c →
        c.length = (cashflow cfg (cfg.m - k - 1)).length →
        v.length = (cashflow cfg (cfg.m - k - 1)).length →
        ∃ w, vc cfg (k + 1) = some (w, c)
          ∧ w.length = (cashflow cfg (cfg.m - k - 1)).length
          ∧ ∀ p, p < (cashflow cfg (cfg.m - k - 1)).length →
              w.getD p 0 = discount cfg *
                (if (cashflow cfg (cfg.m - k - 1)).getD p 0 > c.getD p 0
                 then (cashflow cfg (cfg.m - k - 1)).getD p 0
                 else v.getD p 0) := by
  refine ⟨rfl, ?_⟩
  intro k v cprev c hvk hridge hc hv
  have hw := whereFn_gtMask (cashflow cfg (cfg.m - k - 1)) c
    (cashflow cfg (cfg.m - k - 1)) v hc rfl hv
  refine ⟨(whereFn (gtMask (cashflow cfg (cfg.m - k - 1)) c)
    (cashflow cfg (cfg.m - k - 1)) v).map (fun x => discount cfg * x), ?_, ?_, ?_⟩
  · show (vc cfg k).bind _ = _
    rw [hvk, Option.some_bind, hridge, Option.some_bind]
  · rw [List.length_map]
    exact hw.1
  · intro p hp
    have hplen : p < (whereFn (gtMask (cashflow cfg (cfg.m - k - 1)) c)
        (cashflow cfg (cfg.m - k - 1)) v).length := by
      rw [hw.1]
      exact hp
    rw [getD_map_lt (fun x => discount cfg * x) _ p 0 0 hplen, hw.2 p hp]


/-- C2 (amended).  After the backward pass the reconstructed candidate payoff
at every date satisfies, elementwise per path,
`payoff = cashflow` when `cashflow ≥ continuation_value` — in particular at a
tie the candidate payoff equals the (possibly non-zero) cashflow — and
`payoff = 0` only when `continuation_value > cashflow` strictly.  (The source
computes `where(continuation_value > cashflow, 0, cashflow)`; the claim's
strict `cashflow > continuation_value` rule differs exactly at ties, see the
counterexample.) -/
theorem payoff_reconstruction (cfg : Cfg F) (i : ℕ) (v c : List F)
    (hvc : vc cfg (cfg.m - i) = some (v, c))
    (hc : c.length = (cashflow cfg i).length)
    (hn : cfg.n = (cashflow cfg i).length) :
    ∃ pc, payoffCol cfg i = some pc
      ∧ pc.length = (cashflow cfg i).length
      ∧ ∀ p, p < (cashflow cfg i).length →
          pc.getD p 0 = if c.getD p 0 > (cashflow cfg i).getD p 0 then 0
                        else (cashflow cfg i).getD p 0 := by
  have hw := whereFn_gtMask c (cashflow cfg i) (List.replicate cfg.n 0) (cashflow cfg i)
    hc.symm (by rw [List.length_replicate, hn, hc]) hc.symm
  refine ⟨whereFn (gtMask c (cashflow cfg i)) (List.replicate cfg.n 0) (cashflow cfg i),
    ?_, ?_, ?_⟩
  · rw [payoffCol, hvc, Option.map_some']
  · rw [hw.1, hc]
  · intro p hp
    rw [hw.2 p (by rw [hc]; exact hp), getD_replicate_zero]

/-! ## Claim C1: the Payoff Selector `first_one` -/


theorem zipWith3_all_zero (l c : List F) (h : c.length = l.length) :
    zipWith3 (fun orig lg cc => orig * (lg * cc)) l (List.replicate l.length 0) c
      = List.replicate l.length 0 := by
  induction l generalizing c with
  | nil => simp [zipWith3_nil_left]
  | cons a l ih =>
    cases c with
    | nil => simp at h
    | cons c0 c =>
      simp only [List.length_cons, List.replicate_succ, zipWith3, mul_zero, zero_mul,
        List.cons.injEq, true_and]
      exact ih c (by simpa using h)

theorem cumprod_length (l : List F) : (cumprod l).length = l.length := by
  induction l with
  | nil => rfl
  | cons a l ih => simp [cumprod, ih]



theorem first_one_row_zip (x : List F) :
    first_one_row x =
      zipWith3 (fun orig lg c => orig * (lg * c)) x (1 :: (sumx x).dropLast) (mask x) := rfl

theorem mask_cons (a : F) (l : List F) :
    mask (a :: l) = (if 0 < a then (1 : F) else 0) :: mask l := rfl

theorem sumx_length (x : List F) : (sumx x).length = x.length := by
  simp [sumx, cumprod_length, mask]

theorem dropLast_replicate_succ (k : ℕ) (a : F) :
    (List.replicate (k + 1) a).dropLast = List.replicate k a := by
  rw [List.replicate_succ', List.dropLast_concat]

theorem sumx_cons_pos {a : F} (l : List F) (ha : 0 < a) :
    sumx (a :: l) = List.replicate (l.length + 1) 0 := by
  refine List.eq_replicate_iff.2 ⟨by simpa using sumx_length (a :: l), ?_⟩
  intro b hb
  rw [sumx] at hb
  rcases List.mem_map.1 hb with ⟨v, hv, rfl⟩
  have hv0 : v = 0 := by
    rw [mask_cons, if_pos ha, List.map_cons, sub_self, cumprod] at hv
    rcases List.mem_cons.1 hv with h0 | hmem
    · exact h0
    · rcases List.mem_map.1 hmem with ⟨u, _, rfl⟩
      exact zero_mul u
  rw [hv0]
  exact min_eq_left zero_le_one

theorem sumx_cons_neg {a : F} (l : List F) (ha : ¬ 0 < a) :
    sumx (a :: l) = 1 :: sumx l := by
  simp only [sumx, mask_cons, if_neg ha, List.map_cons, cumprod, sub_zero, one_mul,
    List.map_id', min_self, mask]

theorem dropLast_cons_of_ne_nil (a : F) {l : List F} (h : l ≠ []) :
    (a :: l).dropLast = a :: l.dropLast := by
  cases l with
  | nil => exact absurd rfl h
  | cons b l' => rw [List.dropLast_cons₂]

/-- The cumulative-product / lag construction of `first_one` computes exactly
the first-positive-entry selection. -/
theorem first_one_row_eq_firstPosSelect (x : List F) :
    first_one_row x = firstPosSelect x := by
  induction x with
  | nil => rfl
  | cons a l ih =>
    rw [first_one_row_zip]
    by_cases ha : 0 < a
    · rw [sumx_cons_pos l ha, dropLast_replicate_succ, mask_cons, if_pos ha]
      show (a * (1 * 1)) ::
          zipWith3 (fun orig lg c => orig * (lg * c)) l (List.replicate l.length 0) (mask l)
        = firstPosSelect (a :: l)
      rw [zipWith3_all_zero l (mask l) (by simp [mask])]
      simp [firstPosSelect, if_pos ha]
    · rw [sumx_cons_neg l ha, mask_cons, if_neg ha]
      cases l with
      | nil =>
        simp [zipWith3, firstPosSelect, if_neg ha]
      | cons b l' =>
        have hne : sumx (b :: l') ≠ [] := by
          intro hh
          have := sumx_length (b :: l')
          rw [hh] at this
          simp at this
        rw [dropLast_cons_of_ne_nil 1 hne]
        show (a * (1 * 0)) ::
            zipWith3 (fun orig lg c => orig * (lg * c)) (b :: l')
              (1 :: (sumx (b :: l')).dropLast) (mask (b :: l'))
          = firstPosSelect (a :: b :: l')
        rw [← first_one_row_zip, ih]
        simp [firstPosSelect, if_neg ha]

theorem firstPosSelect_length (x : List F) : (firstPosSelect x).length = x.length := by
  induction x with
  | nil => rfl
  | cons a l ih =>
    by_cases ha : 0 < a <;> simp [firstPosSelect, ha, ih]

theorem firstPosSelect_getD_first (x : List F) :
    ∀ j, 0 < x.getD j 0 → (∀ i, i < j → x.getD i 0 ≤ 0) →
      (firstPosSelect x).getD j 0 = x.getD j 0 := by
  induction x with
  | nil =>
    intro j hj _
    simp at hj
  | cons a l ih =>
    intro j hj hmin
    cases j with
    | zero =>
      simp only [List.getD_cons_zero] at hj ⊢
      simp [firstPosSelect, if_pos hj]
    | succ j =>
      by_cases ha : 0 < a
      · exact absurd (hmin 0 (Nat.succ_pos j)) (by simpa using ha)
      · simp only [List.getD_cons_succ] at hj ⊢
        simp only [firstPosSelect, if_neg ha, List.getD_cons_succ]
        exact ih j hj (fun i hi => by
          have := hmin (i + 1) (Nat.succ_lt_succ hi)
          simpa using this)

theorem firstPosSelect_getD_zero (x : List F) :
    ∀ j, (x.getD j 0 ≤ 0 ∨ ∃ i, i < j ∧ 0 < x.getD i 0) →
      (firstPosSelect x).getD j 0 = 0 := by
  induction x with
  | nil =>
    intro j _
    simp [firstPosSelect]
  | cons a l ih =>
    intro j hj
    cases j with
    | zero =>
      rcases hj with h | ⟨i, hi, _⟩
      · simp only [List.getD_cons_zero] at h
        simp [firstPosSelect, if_neg (not_lt.2 h)]
      · exact absurd hi (Nat.not_lt_zero i)
    | succ j =>
      by_cases ha : 0 < a
      · simp only [firstPosSelect, if_pos ha, List.getD_cons_succ]
        exact getD_replicate_zero l.length j
      · simp only [firstPosSelect, if_neg ha, List.getD_cons_succ]
        refine ih j ?_
        rcases hj with h | ⟨i, hi, hipos⟩
        · exact Or.inl (by simpa using h)
        · cases i with
          | zero => exact absurd (by simpa using hipos) ha
          | succ i =>
            exact Or.inr ⟨i, Nat.lt_of_succ_lt_succ hi, by simpa using hipos⟩

/-- C1.  The Payoff Selector `first_one`: each output row has at most one
non-zero entry; the entry at the first strictly-positive input column is kept
(same column, same value); every other entry is zero; a row with no strictly
positive entry maps to the all-zero row. -/
theorem first_one_selects_first_positive (X : List (List F)) (p : ℕ) :
    (((first_one X).getD p []).length = (X.getD p []).length)
    ∧ (∀ j, 0 < (X.getD p []).getD j 0 → (∀ i, i < j → (X.getD p []).getD i 0 ≤ 0) →
        ((first_one X).getD p []).getD j 0 = (X.getD p []).getD j 0)
    ∧ (∀ j, ((X.getD p []).getD j 0 ≤ 0 ∨ ∃ i, i < j ∧ 0 < (X.getD p []).getD i 0) →
        ((first_one X).getD p []).getD j 0 = 0)
    ∧ (∀ j₁ j₂, ((first_one X).getD p []).getD j₁ 0 ≠ 0 →
        ((first_one X).getD p []).getD j₂ 0 ≠ 0 → j₁ = j₂)
    ∧ ((∀ j, (X.getD p []).getD j 0 ≤ 0) → ∀ j, ((first_one X).getD p []).getD j 0 = 0) := by
  have hrow : (first_one X).getD p [] = firstPosSelect (X.getD p []) := by
    have h1 : (first_one X).getD p [] = first_one_row (X.getD p []) :=
      List.getD_map X [] first_one_row
    rw [h1, first_one_row_eq_firstPosSelect]
  set row := X.getD p [] with hrowdef
  rw [hrow]
  refine ⟨firstPosSelect_length row, firstPosSelect_getD_first row,
    firstPosSelect_getD_zero row, ?_, ?_⟩
  · intro j₁ j₂ h₁ h₂
    by_contra hne
    rcases Nat.lt_or_ge j₁ j₂ with hlt | hge
    · -- j₁ < j₂ : the entry at j₁ forces row.getD j₁ > 0, killing j₂
      by_cases hposA : 0 < row.getD j₁ 0
      · exact h₂ (firstPosSelect_getD_zero row j₂ (Or.inr ⟨j₁, hlt, hposA⟩))
      · exact h₁ (firstPosSelect_getD_zero row j₁ (Or.inl (not_lt.1 hposA)))
    · have hlt : j₂ < j₁ := lt_of_le_of_ne hge (fun h => hne h.symm)
      by_cases hposA : 0 < row.getD j₂ 0
      · exact h₁ (firstPosSelect_getD_zero row j₁ (Or.inr ⟨j₂, hlt, hposA⟩))
      · exact h₂ (firstPosSelect_getD_zero row j₂ (Or.inl (not_lt.1 hposA)))
  · intro hall j
    exact firstPosSelect_getD_zero row j (Or.inl (hall j))

/-- Witness for C1 on the crafted matrix `[[0, -2, 3, 5], [0, 0, 0, 0], [7, 1, 0, 2]]`:
row 0 keeps only its first positive entry `3` (column 2), row 1 stays zero,
row 2 keeps only `7` (column 0). -/
theorem first_one_selects_first_positive_witness :
    (first_one [[(0 : ℚ), -2, 3, 5], [0, 0, 0, 0], [7, 1, 0, 2]]
      = [[0, 0, 3, 0], [0, 0, 0, 0], [7, 0, 0, 0]])
    ∧ ((first_one [[(0 : ℚ), -2, 3, 5], [0, 0, 0, 0], [7, 1, 0, 2]]).getD 0 []).getD 2 0
        = (([[(0 : ℚ), -2, 3, 5], [0, 0, 0, 0], [7, 1, 0, 2]].getD 0 []).getD 2 0) := by
  constructor
  · norm_num [first_one, first_one_row, cumprod, zipWith3]
  · exact (first_one_selects_first_positive
      [[(0 : ℚ), -2, 3, 5], [0, 0, 0, 0], [7, 1, 0, 2]] 0).2.1 2 (by norm_num)
      (fun i hi => by interval_cases i <;> norm_num)

/-! ## Concrete runs -/

theorem range_one : List.range 1 = [0] := rfl

theorem range_two : List.range 2 = [0, 1] := rfl


theorem ridge_eval (a : ℝ) :
    ridge_regression 2 100 [[(1 : ℝ), -1], [1, 1]] [a, 0] = some [a / 51, 0] := by
  have hXt : stack1 [[(1 : ℝ), -1], [1, 1]] (numCols [[(1 : ℝ), -1], [1, 1]])
      = [[1, 1], [-1, 1]] := rfl
  have hXtX : matMulL [[(1 : ℝ), 1], [-1, 1]] [[1, -1], [1, 1]] = [[2, 0], [0, 2]] := by
    norm_num [matMulL, numCols, range_two]
  have heye : smulM (100 : ℝ) (eyeL 2) = [[100, 0], [0, 100]] := by
    norm_num [smulM, eyeL, range_two]
  have hadd : matAddL [[(2 : ℝ), 0], [0, 2]] [[100, 0], [0, 100]]
      = some [[102, 0], [0, 102]] := by
    norm_num [matAddL, List.zipWith]
  have hXtY : matMulL [[(1 : ℝ), 1], [-1, 1]] ([a, 0].map (fun y => [y])) = [[a], [-a]] := by
    norm_num [matMulL, numCols, range_one]
  have hsol : solveSq 2 [[(102 : ℝ), 0], [0, 102]] [[a], [-a]]
      = some [[a / 102], [-a / 102]] := by
    rw [solveSq, if_pos (by norm_num :
      ([[(102 : ℝ), 0], [0, 102]] : List (List ℝ)).length = 2
      ∧ (∀ r ∈ [[(102 : ℝ), 0], [0, 102]], r.length = 2)
      ∧ ([[a], [-a]] : List (List ℝ)).length = 2)]
    have hdet : (toMat 2 2 [[(102 : ℝ), 0], [0, 102]]).det = 10404 := by
      rw [Matrix.det_fin_two]
      norm_num [toMat]
    have hadj : (toMat 2 2 [[(102 : ℝ), 0], [0, 102]]).adjugate
        = Matrix.of ![![102, 0], ![0, 102]] := by
      rw [Matrix.adjugate_fin_two]
      norm_num [toMat]
    rw [if_neg (by rw [hdet]; norm_num)]
    congr 1
    have hofn : ∀ g : Fin 2 → ℝ, List.ofFn (fun i => [g i]) = [[g 0], [g 1]] := by
      intro g
      simp [List.ofFn_succ]
    rw [hofn, hdet, hadj]
    norm_num [Matrix.mulVec, Matrix.dotProduct, Fin.sum_univ_two, Pi.smul_apply, smul_eq_mul]
    constructor <;> ring_nf
  have hout : matMulL [[(1 : ℝ), -1], [1, 1]] [[a / 102], [-a / 102]]
      = [[a / 102 + a / 102], [0]] := by
    norm_num [matMulL, numCols, range_one]
    ring_nf
    exact ⟨trivial, trivial⟩
  rw [ridge_regression]
  simp only [hXt, hXtX, heye, hadd, Option.some_bind, hXtY, hsol, hout]
  norm_num
  ring

theorem run_Δt (Kv : ℝ) : Δt (runCfg Kv) = 1 := by
  norm_num [Δt, runCfg]

theorem run_S1 (Kv : ℝ) : S (runCfg Kv) 1 = [10, 12] := by
  have h : S (runCfg Kv) 1 = advance (runCfg Kv) (S (runCfg Kv) 0) ((runCfg Kv).Z 0) := rfl
  have h0 : S (runCfg Kv) 0 = [1, 1] := rfl
  have hz : (runCfg Kv).Z 0 = [9, 11] := rfl
  rw [h, h0, hz, advance, run_Δt]
  norm_num [runCfg, Real.sqrt_one, List.zipWith]

theorem run_S2 (Kv : ℝ) : S (runCfg Kv) 2 = [1, 100] := by
  have h : S (runCfg Kv) 2 = advance (runCfg Kv) (S (runCfg Kv) 1) ((runCfg Kv).Z 1) := rfl
  have hz : (runCfg Kv).Z 1 = [-(9 / 10), 22 / 3] := rfl
  rw [h, run_S1, hz, advance, run_Δt]
  norm_num [runCfg, Real.sqrt_one, List.zipWith]

theorem run_discount (Kv : ℝ) : discount (runCfg Kv) = 1 := by
  rw [discount, run_Δt]
  norm_num [runCfg, Real.exp_zero]

theorem run_cash1 (Kv : ℝ) (h10 : 10 ≤ Kv) (h12 : Kv ≤ 12) :
    cashflow (runCfg Kv) 1 = [Kv - 10, 0] := by
  rw [cashflow, run_S1]
  simp only [List.map_cons, List.map_nil]
  have hK : (runCfg Kv).K = Kv := rfl
  rw [hK, max_eq_left (by linarith), max_eq_right (by linarith)]

theorem run_cash2 (Kv : ℝ) (h10 : 10 ≤ Kv) (h12 : Kv ≤ 12) :
    cashflow (runCfg Kv) 2 = [Kv - 1, 0] := by
  rw [cashflow, run_S2]
  simp only [List.map_cons, List.map_nil]
  have hK : (runCfg Kv).K = Kv := rfl
  rw [hK, max_eq_left (by linarith), max_eq_right (by linarith)]

theorem run_vc0 (Kv : ℝ) (h10 : 10 ≤ Kv) (h12 : Kv ≤ 12) :
    vc (runCfg Kv) 0 = some ([Kv - 1, 0], [0, 0]) := by
  have h : vc (runCfg Kv) 0
      = some ((cashflow (runCfg Kv) 2).map (fun c => c * discount (runCfg Kv)),
          List.replicate 2 0) := rfl
  rw [h, run_cash2 Kv h10 h12, run_discount]
  norm_num [List.replicate_succ]

theorem run_scale : scale [(10 : ℝ), 12] = [-1, 1] := by
  norm_num [scale, lmin, lmax, min_def, max_def]

theorem run_basis : chebyshev_basis [(-1 : ℝ), 1] 2 = [[1, -1], [1, 1]] := rfl

theorem run_vc1 (Kv : ℝ) (h10 : 10 ≤ Kv) (h12 : Kv ≤ 12) :
    ∃ v1, vc (runCfg Kv) 1 = some (v1, [(Kv - 1) / 51, 0]) := by
  have h : vc (runCfg Kv) 1
      = (vc (runCfg Kv) 0).bind (fun p =>
          (ridge_regression 2 100 (chebyshev_basis (scale (S (runCfg Kv) 1)) 2) p.1).bind
            (fun c => some ((whereFn (gtMask (cashflow (runCfg Kv) 1) c)
              (cashflow (runCfg Kv) 1) p.1).map (fun v => discount (runCfg Kv) * v), c))) := rfl
  rw [h, run_vc0 Kv h10 h12, Option.some_bind, run_S1, run_scale, run_basis,
    ridge_eval (Kv - 1), Option.some_bind]
  exact ⟨_, rfl⟩

theorem run_payoff2 (Kv : ℝ) (h10 : 10 ≤ Kv) (h12 : Kv ≤ 12) :
    payoffCol (runCfg Kv) 2 = some [Kv - 1, 0] := by
  have h : payoffCol (runCfg Kv) 2
      = (vc (runCfg Kv) 0).map (fun p => whereFn (gtMask p.2 (cashflow (runCfg Kv) 2))
          (List.replicate 2 0) (cashflow (runCfg Kv) 2)) := rfl
  rw [h, run_vc0 Kv h10 h12, Option.map_some', run_cash2 Kv h10 h12]
  have hm1 : ¬ ((0 : ℝ) > Kv - 1) := by linarith
  have hm2 : ¬ ((0 : ℝ) > 0) := by norm_num
  simp only [whereFn, gtMask, List.zipWith, zipWith3, List.replicate, if_neg hm1, if_neg hm2]
  norm_num

theorem run_payoff1_K10 : payoffCol (runCfg 10) 1 = some [0, 0] := by
  obtain ⟨v1, hvc1⟩ := run_vc1 10 (by norm_num) (by norm_num)
  have h : payoffCol (runCfg 10) 1
      = (vc (runCfg 10) 1).map (fun p => whereFn (gtMask p.2 (cashflow (runCfg 10) 1))
          (List.replicate 2 0) (cashflow (runCfg 10) 1)) := rfl
  rw [h, hvc1, Option.map_some', run_cash1 10 (by norm_num) (by norm_num)]
  have hm1 : ((10 : ℝ) - 1) / 51 > 10 - 10 := by norm_num
  have hm2 : ¬ ((0 : ℝ) > 0) := by norm_num
  simp only [whereFn, gtMask, List.zipWith, zipWith3, List.replicate, if_pos hm1, if_neg hm2]
  norm_num

theorem run_payoff1_K102 : payoffCol (runCfg (51 / 5)) 1 = some [51 / 5 - 10, 0] := by
  obtain ⟨v1, hvc1⟩ := run_vc1 (51 / 5) (by norm_num) (by norm_num)
  have h : payoffCol (runCfg (51 / 5)) 1
      = (vc (runCfg (51 / 5)) 1).map
          (fun p => whereFn (gtMask p.2 (cashflow (runCfg (51 / 5)) 1))
            (List.replicate 2 0) (cashflow (runCfg (51 / 5)) 1)) := rfl
  rw [h, hvc1, Option.map_some', run_cash1 (51 / 5) (by norm_num) (by norm_num)]
  have hm1 : ¬ (((51 : ℝ) / 5 - 1) / 51 > 51 / 5 - 10) := by norm_num
  have hm2 : ¬ ((0 : ℝ) > 0) := by norm_num
  simp only [whereFn, gtMask, List.zipWith, zipWith3, List.replicate, if_neg hm1, if_neg hm2]
  norm_num

theorem run_payoffMat_K10 : payoffMat (runCfg 10) = some [[0, 10 - 1], [0, 0]] := by
  have h : payoffMat (runCfg 10)
      = ((List.range 2).mapM (fun j => payoffCol (runCfg 10) (j + 1))).map
          (fun cols => stack1 cols 2) := rfl
  rw [h, range_two]
  simp only [List.mapM_cons, List.mapM_nil]
  rw [show (0 : ℕ) + 1 = 1 from rfl, show (1 : ℕ) + 1 = 2 from rfl,
    run_payoff1_K10, run_payoff2 10 (by norm_num) (by norm_num)]
  simp only [Option.some_bind, Option.pure_def]
  norm_num [stack1, range_two]

theorem run_payoffMat_K102 :
    payoffMat (runCfg (51 / 5)) = some [[51 / 5 - 10, 51 / 5 - 1], [0, 0]] := by
  have h : payoffMat (runCfg (51 / 5))
      = ((List.range 2).mapM (fun j => payoffCol (runCfg (51 / 5)) (j + 1))).map
          (fun cols => stack1 cols 2) := rfl
  rw [h, range_two]
  simp only [List.mapM_cons, List.mapM_nil]
  rw [show (0 : ℕ) + 1 = 1 from rfl, show (1 : ℕ) + 1 = 2 from rfl,
    run_payoff1_K102, run_payoff2 (51 / 5) (by norm_num) (by norm_num)]
  simp only [Option.some_bind, Option.pure_def]
  norm_num [stack1, range_two]

theorem run_price_K10 : price (runCfg 10) = some (9 / 2) := by
  have h : price (runCfg 10)
      = (payoffMat (runCfg 10)).map (fun Pm =>
          (((List.range 2).map (fun i =>
            (colL (first_one Pm) i).sum * Real.exp (-((runCfg 10).r * (i : ℝ) * Δt (runCfg 10))))).sum)
          / ((2 : ℕ) : ℝ)) := rfl
  rw [h, run_payoffMat_K10, Option.map_some']
  have hfo : first_one [[(0 : ℝ), 10 - 1], [0, 0]] = [[0, 10 - 1], [0, 0]] := by
    norm_num [first_one, first_one_row, cumprod, zipWith3]
  have hr0 : (runCfg 10).r = 0 := rfl
  rw [range_two]
  simp only [List.map_cons, List.map_nil, hfo, hr0, colL]
  norm_num [Real.exp_zero]

theorem run_price_K102 : price (runCfg (51 / 5)) = some (1 / 10) := by
  have h : price (runCfg (51 / 5))
      = (payoffMat (runCfg (51 / 5))).map (fun Pm =>
          (((List.range 2).map (fun i =>
            (colL (first_one Pm) i).sum
              * Real.exp (-((runCfg (51 / 5)).r * (i : ℝ) * Δt (runCfg (51 / 5)))))).sum)
          / ((2 : ℕ) : ℝ)) := rfl
  rw [h, run_payoffMat_K102, Option.map_some']
  have hfo : first_one [[(51 : ℝ) / 5 - 10, 51 / 5 - 1], [0, 0]]
      = [[51 / 5 - 10, 0], [0, 0]] := by
    norm_num [first_one, first_one_row, cumprod, zipWith3]
  have hr0 : (runCfg (51 / 5)).r = 0 := rfl
  rw [range_two]
  simp only [List.map_cons, List.map_nil, hfo, hr0, colL]
  norm_num [Real.exp_zero]

/-- Counterexample to C9 as stated: with every parameter and all normal draws
fixed, raising the strike from `10` to `51/5 = 10.2` *lowers* the computed
price from `9/2` to `1/10`: at `K = 10` the first date is out of the money and
the deep-in-the-money terminal cashflow `9` is collected, while at `K = 10.2`
the regression-estimated continuation value (≈ 0.1795) falls below the
immediate cashflow `0.2`, the path exercises early, and the large terminal
payoff is forfeited. -/
theorem price_not_monotone_in_strike_counterexample :
    (10 : ℝ) ≤ 51 / 5
    ∧ price (runCfg 10) = some (9 / 2)
    ∧ price (runCfg (51 / 5)) = some (1 / 10)
    ∧ ¬ ((9 : ℝ) / 2 ≤ 1 / 10) :=
  ⟨by norm_num, run_price_K10, run_price_K102, by norm_num⟩

theorem run_payoff1_K1018 :
    payoffCol (runCfg (509 / 50)) 1 = some [509 / 50 - 10, 0] := by
  obtain ⟨v1, hvc1⟩ := run_vc1 (509 / 50) (by norm_num) (by norm_num)
  have h : payoffCol (runCfg (509 / 50)) 1
      = (vc (runCfg (509 / 50)) 1).map
          (fun p => whereFn (gtMask p.2 (cashflow (runCfg (509 / 50)) 1))
            (List.replicate 2 0) (cashflow (runCfg (509 / 50)) 1)) := rfl
  rw [h, hvc1, Option.map_some', run_cash1 (509 / 50) (by norm_num) (by norm_num)]
  have hm1 : ¬ (((509 : ℝ) / 50 - 1) / 51 > 509 / 50 - 10) := by norm_num
  have hm2 : ¬ ((0 : ℝ) > 0) := by norm_num
  simp only [whereFn, gtMask, List.zipWith, zipWith3, List.replicate, if_neg hm1, if_neg hm2]
  norm_num

/-- Counterexample to C2 as stated: in the run with strike `K = 509/50` the
regression gives, on path `0` at the first exercise date, a continuation value
exactly equal to the (positive) immediate cashflow `9/50`; the claim demands a
zero candidate payoff at such a tie, but the code's
`where(continuation_value > cashflow, 0, cashflow)` keeps the cashflow. -/
theorem payoff_tie_counterexample :
    ∃ v1 c1 pc,
      vc (runCfg (509 / 50)) 1 = some (v1, c1)
      ∧ payoffCol (runCfg (509 / 50)) 1 = some pc
      ∧ c1.getD 0 0 = (cashflow (runCfg (509 / 50)) 1).getD 0 0
      ∧ 0 < (cashflow (runCfg (509 / 50)) 1).getD 0 0
      ∧ pc.getD 0 0 = (cashflow (runCfg (509 / 50)) 1).getD 0 0
      ∧ pc.getD 0 0 ≠ 0 := by
  obtain ⟨v1, hvc1⟩ := run_vc1 (509 / 50) (by norm_num) (by norm_num)
  refine ⟨v1, [(509 / 50 - 1) / 51, 0], [509 / 50 - 10, 0], hvc1, run_payoff1_K1018,
    ?_, ?_, ?_, by norm_num⟩ <;>
    rw [run_cash1 (509 / 50) (by norm_num) (by norm_num)] <;> norm_num

/-- Witness for C3 on the concrete run at strike `10`: one backward step from
the terminal state. -/
theorem backward_induction_engine_witness :
    (vc (runCfg 10) 0 = some ([10 - 1, 0], [0, 0]))
    ∧ ∃ w, vc (runCfg 10) 1 = some (w, [(10 - 1) / 51, 0])
        ∧ w.length = (cashflow (runCfg 10) 1).length
        ∧ ∀ p, p < (cashflow (runCfg 10) 1).length →
            w.getD p 0 = discount (runCfg 10) *
              (if (cashflow (runCfg 10) 1).getD p 0 > [(10 - 1) / 51, 0].getD p 0
               then (cashflow (runCfg 10) 1).getD p 0
               else [10 - 1, 0].getD p 0) := by
  refine ⟨run_vc0 10 (by norm_num) (by norm_num), ?_⟩
  exact (backward_induction_engine (runCfg 10)).2 0 [10 - 1, 0] [0, 0] [(10 - 1) / 51, 0]
    (run_vc0 10 (by norm_num) (by norm_num))
    (by
      show ridge_regression 2 100 (chebyshev_basis (scale (S (runCfg 10) 1)) 2) [10 - 1, 0]
          = some [(10 - 1) / 51, 0]
      rw [run_S1, run_scale, run_basis]
      exact ridge_eval (10 - 1))
    (by
      show ([(10 - 1) / 51, 0] : List ℝ).length = (cashflow (runCfg 10) 1).length
      rw [run_cash1 10 (by norm_num) (by norm_num)]
      rfl)
    (by
      show ([10 - 1, 0] : List ℝ).length = (cashflow (runCfg 10) 1).length
      rw [run_cash1 10 (by norm_num) (by norm_num)]
      rfl)

/-- Witness for C2 (amended) on the concrete run at strike `509/50` — the
date where the tie occurs. -/
theorem payoff_reconstruction_witness :
    ∃ v1 pc,
      vc (runCfg (509 / 50)) 1 = some (v1, [(509 / 50 - 1) / 51, 0])
      ∧ payoffCol (runCfg (509 / 50)) 1 = some pc
      ∧ pc.length = (cashflow (runCfg (509 / 50)) 1).length
      ∧ ∀ p, p < (cashflow (runCfg (509 / 50)) 1).length →
          pc.getD p 0 =
            if [(509 / 50 - 1) / 51, 0].getD p 0 > (cashflow (runCfg (509 / 50)) 1).getD p 0
            then 0 else (cashflow (runCfg (509 / 50)) 1).getD p 0 := by
  obtain ⟨v1, hvc1⟩ := run_vc1 (509 / 50) (by norm_num) (by norm_num)
  obtain ⟨pc, hpc, hlen, hent⟩ := payoff_reconstruction (runCfg (509 / 50)) 1 v1
    [(509 / 50 - 1) / 51, 0] hvc1
    (by rw [run_cash1 (509 / 50) (by norm_num) (by norm_num)]; rfl)
    (by rw [run_cash1 (509 / 50) (by norm_num) (by norm_num)]; rfl)
  exact ⟨v1, pc, hvc1, hpc, hlen, hent⟩

theorem sum_map_add {α : Type} (l : List α) (f g : α → F) :
    (l.map (fun i => f i + g i)).sum = (l.map f).sum + (l.map g).sum := by
  induction l with
  | nil => simp
  | cons a l ih =>
    simp only [List.map_cons, List.sum_cons, ih]
    ring

theorem colL_sum_interchange (L : List (List F)) (m : ℕ) (e : ℕ → F) :
    ((List.range m).map (fun i => (colL L i).sum * e i)).sum
      = (L.map (fun row => ((List.range m).map (fun i => row.getD i 0 * e i)).sum)).sum := by
  induction L with
  | nil => simp [colL]
  | cons row L ih =>
    have hcol : ∀ i : ℕ, (colL (row :: L) i).sum = row.getD i 0 + (colL L i).sum := by
      intro i
      simp [colL]
    simp only [List.map_cons, List.sum_cons]
    calc ((List.range m).map (fun i => (colL (row :: L) i).sum * e i)).sum
        = ((List.range m).map (fun i => row.getD i 0 * e i + (colL L i).sum * e i)).sum := by
          apply congrArg
          apply List.map_congr_left
          intro i _
          rw [hcol i]
          ring
      _ = ((List.range m).map (fun i => row.getD i 0 * e i)).sum
            + ((List.range m).map (fun i => (colL L i).sum * e i)).sum := sum_map_add _ _ _
      _ = _ := by rw [ih]

/-- C8.  The reported price is `(1/n)` times the sum, over all paths (rows of
the selected payoff matrix) and all `m` columns, of the selected payoff in
column `i` times `exp(-r·i·Δt)` with `i` the 0-based column index: the
column-wise accumulation of the source equals this row-and-column double
sum. -/
theorem price_discounted_sum (cfg : Cfg F) (Pm : List (List F))
    (hPm : payoffMat cfg = some Pm) :
    price cfg = some ((((first_one Pm).map (fun row =>
        ((List.range cfg.m).map (fun (i : ℕ) =>
          row.getD i 0 * cfg.fexp (-(cfg.r * (i : F) * Δt cfg)))).sum)).sum) / (cfg.n : F)) := by
  rw [price, hPm, Option.map_some']
  rw [colL_sum_interchange (first_one Pm) cfg.m
    (fun i => cfg.fexp (-(cfg.r * (i : F) * Δt cfg)))]

/-- Witness for C8 on the concrete run at strike `10`. -/
theorem price_discounted_sum_witness :
    payoffMat (runCfg 10) = some [[0, 10 - 1], [0, 0]]
    ∧ price (runCfg 10) = some ((((first_one [[(0 : ℝ), 10 - 1], [0, 0]]).map (fun row =>
        ((List.range 2).map (fun (i : ℕ) =>
          row.getD i 0 * Real.exp (-((0 : ℝ) * (i : ℝ) * Δt (runCfg 10))))).sum)).sum)
      / ((2 : ℕ) : ℝ)) :=
  ⟨run_payoffMat_K10, price_discounted_sum (runCfg 10) [[0, 10 - 1], [0, 0]] run_payoffMat_K10⟩

/-! ## Single-exercise-date runs (`m = 1`): no regression is ever performed -/

theorem S_congr (c1 c2 : Cfg F) (hf : c1.fsqrt = c2.fsqrt) (hSp : c1.Spot = c2.Spot)
    (hσ : c1.σv = c2.σv) (hr : c1.r = c2.r) (hT : c1.T = c2.T) (hn : c1.n = c2.n)
    (hm : c1.m = c2.m) (hZ : c1.Z = c2.Z) : ∀ i, S c1 i = S c2 i := by
  intro i
  induction i with
  | zero =>
    show List.replicate c1.n c1.Spot = List.replicate c2.n c2.Spot
    rw [hSp, hn]
  | succ i ih =>
    show advance c1 (S c1 i) (c1.Z i) = advance c2 (S c2 i) (c2.Z i)
    rw [ih, hZ, advance, advance, Δt, Δt, hf, hσ, hr, hT, hm]

theorem first_one_row_singleton (c : F) :
    first_one_row [c] = [c * (1 * (if 0 < c then (1 : F) else 0))] := rfl

theorem first_one_row_singleton_getD (c : F) (hc : 0 ≤ c) :
    (first_one_row [c]).getD 0 0 = c := by
  rw [first_one_row_singleton]
  simp only [List.getD_cons_zero]
  by_cases h : 0 < c
  · rw [if_pos h]
    ring
  · rw [if_neg h]
    have hc0 : c = 0 := le_antisymm (not_lt.1 h) hc
    rw [hc0]
    ring

/-- With a single exercise date (`m = 1`) the backward loop body never runs:
no regression is performed, the lone candidate payoff column is the terminal
cashflow, and the reported price is the average of `max(K - S₁, 0)` over the
paths. -/
theorem price_single_date (fsq : ℝ → ℝ) (Sp σ0 K0 r0 T0 : ℝ) (order n : ℕ)
    (Z : ℕ → List ℝ) (hZ : (Z 0).length = n) :
    price (Cfg.mk Real.exp fsq Sp σ0 K0 r0 T0 order n 1 Z)
      = some ((((List.range n).map (fun p =>
          max (K0 - (S (Cfg.mk Real.exp fsq Sp σ0 K0 r0 T0 order n 1 Z) 1).getD p 0) 0)).sum)
        / (n : ℝ)) := by
  set cfg := Cfg.mk Real.exp fsq Sp σ0 K0 r0 T0 order n 1 Z with hcfg
  have hS1len : (S cfg 1).length = n := by
    show (advance cfg (S cfg 0) (cfg.Z 0)).length = n
    rw [advance, List.length_zipWith]
    have h0 : (S cfg 0).length = n := by
      show (List.replicate n Sp).length = n
      exact List.length_replicate n Sp
    rw [h0, show cfg.Z 0 = Z 0 from rfl, hZ, min_self]
  have hcashlen : (cashflow cfg 1).length = n := by
    rw [cashflow, List.length_map, hS1len]
  have hcash_entry : ∀ p, p < n →
      (cashflow cfg 1).getD p 0 = max (K0 - (S cfg 1).getD p 0) 0 := by
    intro p hp
    rw [cashflow, getD_map_lt (fun s => max (cfg.K - s) 0) (S cfg 1) p 0 0
      (by rw [hS1len]; exact hp)]
  have hpc : payoffCol cfg 1
      = some (whereFn (gtMask (List.replicate n 0) (cashflow cfg 1))
          (List.replicate n 0) (cashflow cfg 1)) := rfl
  have hpay := whereFn_gtMask (List.replicate n 0) (cashflow cfg 1)
    (List.replicate n 0) (cashflow cfg 1)
    (by rw [hcashlen, List.length_replicate]) rfl
    (by rw [hcashlen, List.length_replicate])
  set payoff1 := whereFn (gtMask (List.replicate n 0) (cashflow cfg 1))
    (List.replicate n 0) (cashflow cfg 1) with hpay1def
  have hpaylen : payoff1.length = n := by
    rw [hpay1def]
    rw [hpay.1, List.length_replicate]
  have hpay_entry : ∀ p, p < n → payoff1.getD p 0 = max (K0 - (S cfg 1).getD p 0) 0 := by
    intro p hp
    have h1 := hpay.2 p (by rw [List.length_replicate]; exact hp)
    rw [hpay1def, h1, getD_replicate_zero, hcash_entry p hp]
    rw [if_neg (not_lt.2 (le_max_right _ _))]
  have hmat : payoffMat cfg = some (stack1 [payoff1] n) := by
    have h : payoffMat cfg
        = ((List.range 1).mapM (fun j => payoffCol cfg (j + 1))).map
            (fun cols => stack1 cols n) := rfl
    rw [h, range_one]
    simp only [List.mapM_cons, List.mapM_nil]
    rw [show (0 : ℕ) + 1 = 1 from rfl, hpc]
    rfl
  have hprice : price cfg = some ((((List.range 1).map (fun (i : ℕ) =>
      (colL (first_one (stack1 [payoff1] n)) i).sum
        * Real.exp (-(r0 * (i : ℝ) * Δt cfg)))).sum) / (n : ℝ)) := by
    rw [price, hmat, Option.map_some']
  rw [hprice, range_one]
  simp only [List.map_cons, List.map_nil, List.sum_cons, List.sum_nil, Nat.cast_zero,
    mul_zero, zero_mul, neg_zero, Real.exp_zero, mul_one, add_zero]
  congr 2
  -- the remaining column sum equals the sum of max(K - S₁, 0)
  have hst : stack1 [payoff1] n = (List.range n).map (fun p => [payoff1.getD p 0]) := by
    rw [stack1]
    apply List.map_congr_left
    intro p _
    rfl
  rw [hst]
  rw [show first_one ((List.range n).map (fun p => [payoff1.getD p 0]))
      = (List.range n).map (fun p => first_one_row [payoff1.getD p 0]) from by
    rw [first_one, List.map_map]; rfl]
  rw [show colL ((List.range n).map (fun p => first_one_row [payoff1.getD p 0])) 0
      = (List.range n).map (fun p => (first_one_row [payoff1.getD p 0]).getD 0 0) from by
    rw [colL, List.map_map]; rfl]
  apply congrArg
  apply List.map_congr_left
  intro p hp
  have hp' : p < n := List.mem_range.1 hp
  rw [hpay_entry p hp', first_one_row_singleton_getD _ (le_max_right _ _)]

/-- C9 (amended).  With a single exercise date (`m = 1`), where no regression
is involved, the price is non-decreasing in the strike, all parameters and
draws fixed.  (With `m ≥ 2` the regression-estimated exercise rule can
reverse monotonicity — see the counterexample.) -/
theorem price_monotone_single_date (fsq : ℝ → ℝ) (Sp σ0 r0 T0 : ℝ) (order n : ℕ)
    (Z : ℕ → List ℝ) (hZ : (Z 0).length = n) (K1 K2 : ℝ) (hK : K1 ≤ K2) :
    ∃ p1 p2 : ℝ,
      price (Cfg.mk Real.exp fsq Sp σ0 K1 r0 T0 order n 1 Z) = some p1
      ∧ price (Cfg.mk Real.exp fsq Sp σ0 K2 r0 T0 order n 1 Z) = some p2
      ∧ p1 ≤ p2 := by
  have h1 := price_single_date fsq Sp σ0 K1 r0 T0 order n Z hZ
  have h2 := price_single_date fsq Sp σ0 K2 r0 T0 order n Z hZ
  have hS : S (Cfg.mk Real.exp fsq Sp σ0 K1 r0 T0 order n 1 Z) 1
      = S (Cfg.mk Real.exp fsq Sp σ0 K2 r0 T0 order n 1 Z) 1 :=
    S_congr _ _ rfl rfl rfl rfl rfl rfl rfl rfl 1
  refine ⟨_, _, h1, h2, ?_⟩
  rw [hS]
  rcases Nat.eq_zero_or_pos n with hn | hn
  · rw [hn]
    norm_num
  · rw [div_le_div_iff_of_pos_right (by exact_mod_cast hn)]
    apply List.sum_le_sum
    intro p _
    have : K1 - (S (Cfg.mk Real.exp fsq Sp σ0 K2 r0 T0 order n 1 Z) 1).getD p 0
        ≤ K2 - (S (Cfg.mk Real.exp fsq Sp σ0 K2 r0 T0 order n 1 Z) 1).getD p 0 := by
      linarith
    exact max_le_max this (le_refl 0)

/-- Witness for C9 (amended): a concrete single-date run with strikes 1 ≤ 2. -/
theorem price_monotone_single_date_witness :
    ((fun _ : ℕ => [(0 : ℝ)]) 0).length = 1 ∧ (1 : ℝ) ≤ 2
    ∧ ∃ p1 p2 : ℝ,
        price (Cfg.mk Real.exp Real.sqrt 1 1 1 0 1 2 1 1 (fun _ => [(0 : ℝ)])) = some p1
        ∧ price (Cfg.mk Real.exp Real.sqrt 1 1 2 0 1 2 1 1 (fun _ => [(0 : ℝ)])) = some p2
        ∧ p1 ≤ p2 :=
  ⟨rfl, by norm_num,
    price_monotone_single_date Real.sqrt 1 1 0 1 2 1 (fun _ => [(0 : ℝ)]) rfl 1 2 (by norm_num)⟩

/-- C10 (amended).  The code performs no parameter validation at all: an
invalid parameter set does not fail immediately with a `ConfigurationError`.
In particular `poly_order = 0` (invalid per the claim) with a single time step
runs the entire pipeline — simulation, payoff assembly, selection,
discounting — and returns a price. -/
theorem no_configuration_error (fsq : ℝ → ℝ) (Sp σ0 K0 r0 T0 : ℝ) (n : ℕ)
    (Z : ℕ → List ℝ) (hZ : (Z 0).length = n) :
    ∃ pr : ℝ, price (Cfg.mk Real.exp fsq Sp σ0 K0 r0 T0 0 n 1 Z) = some pr :=
  ⟨_, price_single_date fsq Sp σ0 K0 r0 T0 0 n Z hZ⟩

/-- Witness for C10 (amended). -/
theorem no_configuration_error_witness :
    ((fun _ : ℕ => [(0 : ℝ), 0]) 0).length = 2
    ∧ ∃ pr : ℝ, price (Cfg.mk Real.exp Real.sqrt 1 1 2 0 1 0 2 1 (fun _ => [(0 : ℝ), 0]))
        = some pr :=
  ⟨rfl, no_configuration_error Real.sqrt 1 1 2 0 1 2 (fun _ => [(0 : ℝ), 0]) rfl⟩

/-- Counterexample to C10 as stated: with the invalid parameter
`poly_order = 0` (and `n_steps = 1`, two paths, zero draws) the run does not
fail at all, let alone immediately with a `ConfigurationError` before any
computation: the full pipeline executes and returns the price `1`. -/
theorem no_configuration_error_counterexample :
    price (Cfg.mk Real.exp Real.sqrt 1 1 2 0 1 0 2 1 (fun _ => [(0 : ℝ), 0])) = some 1 := by
  rw [price_single_date Real.sqrt 1 1 2 0 1 0 2 (fun _ => [(0 : ℝ), 0]) rfl]
  have hS1 : S (Cfg.mk Real.exp Real.sqrt 1 1 2 0 1 0 2 1 (fun _ => [(0 : ℝ), 0])) 1
      = [1, 1] := by
    have h : S (Cfg.mk Real.exp Real.sqrt 1 1 2 0 1 0 2 1 (fun _ => [(0 : ℝ), 0])) 1
        = advance (Cfg.mk Real.exp Real.sqrt 1 1 2 0 1 0 2 1 (fun _ => [(0 : ℝ), 0]))
            (List.replicate 2 1) [0, 0] := rfl
    rw [h, advance]
    norm_num [List.replicate_succ, List.zipWith]
  rw [hS1, range_two]
  norm_num

end LSMC
